import Mathlib

/-! Verification of the dvid_tools core: skeleton-graph repair (parse, heal,
reroot, serialize), sparse-volume run decoding, voxel erosion, and the
parameter-default plumbing of the fetch module.  Components whose Python
source is not part of the repository snapshot (utils, decode, mesh) are
modelled from the specification; everything else is translated from
`dvidtools/fetch.py` and `dvidtools/tip.py`. -/

namespace DvidTools

/-- A skeleton node, one row of the SWC-like table:
`node_id type x y z radius parent_id` (the `type` column is called `label`
in the code).  Numeric fields are modelled as integers. -/
structure SkelNode where
  node_id : Int
  parent_id : Int
  x : Int
  y : Int
  z : Int
  radius : Int
  label : Int
  deriving Repr, DecidableEq

/-- A skeleton graph: the node table, in row order. -/
abbrev Skeleton := List SkelNode

/-- Look up a node by id (first match, as a table lookup). -/
def findNode (g : Skeleton) (i : Int) : Option SkelNode :=
  g.find? (fun n => n.node_id == i)

/-- Follow parent pointers from node `i` collecting the visited ids, until a
root (`parent_id == -1`) is reached; `none` when the fuel runs out, the id is
missing, or a parent dangles. -/
def chainAux (g : Skeleton) : Nat → Int → Option (List Int)
  | 0, _ => none
  | fuel+1, i =>
    match findNode g i with
    | none => none
    | some n =>
      if n.parent_id = -1 then some [i]
      else (chainAux g fuel n.parent_id).map (fun l => i :: l)

/-- The parent chain from `i` to its root, with the canonical fuel `g.length`
(enough for any acyclic graph). -/
def chain (g : Skeleton) (i : Int) : Option (List Int) :=
  chainAux g g.length i

/-- The root reached from node `i` by following parent pointers. -/
def rootOf (g : Skeleton) (i : Int) : Option Int :=
  (chain g i).map (fun l => l.getLastD 0)

/-- Well-formed skeleton: ids are non-negative and duplicate-free, and every
node reaches a root by following parent pointers (no cycles, no dangling
parents). -/
def WellFormed (g : Skeleton) : Prop :=
  (g.map (·.node_id)).Nodup ∧ (∀ n ∈ g, 0 ≤ n.node_id) ∧
    ∀ n ∈ g, (chain g n.node_id).isSome

instance (g : Skeleton) : Decidable (WellFormed g) := by
  unfold WellFormed; infer_instance

/-- The roots of the forest: nodes with `parent_id == -1`. -/
def roots (g : Skeleton) : List SkelNode :=
  g.filter (fun n => n.parent_id == -1)

/-- Leaf nodes as computed by `detect_tips` (tip.py line 61):
`n[~n.node_id.isin(n.parent_id.values)]` — the rows whose `node_id` does not
occur in the `parent_id` column. -/
def find_leafs (g : Skeleton) : Skeleton :=
  g.filter (fun n => !(decide (n.node_id ∈ g.map (·.parent_id))))

/-- Descending comparison on the `radius` column. -/
def radGE (a b : SkelNode) : Prop := b.radius ≤ a.radius

instance : DecidableRel radGE :=
  fun a b => decidable_of_iff (b.radius ≤ a.radius) Iff.rfl

instance : IsTotal SkelNode radGE := ⟨fun a b => le_total b.radius a.radius⟩

instance : IsTrans SkelNode radGE := ⟨fun _ _ _ h1 h2 => le_trans h2 h1⟩

/-- The `save_to=None` return path of `detect_tips` (tip.py lines 139-161):
the leaf rows surviving the PSD/DONE/checked filters (abstracted as the
predicate `keep`, since they depend on server responses), sorted by `radius`
in descending order. -/
def detect_tips_core (g : Skeleton) (keep : SkelNode → Bool) : Skeleton :=
  List.insertionSort radGE ((find_leafs g).filter keep)

/-- Redirect the parent pointer of the node with id `i` to `p`. -/
def setParent (g : Skeleton) (i p : Int) : Skeleton :=
  g.map (fun n => if n.node_id = i then { n with parent_id := p } else n)

/-- Squared Euclidean distance between two nodes (the argmin of the squared
distance is the nearest-neighbor argmin). -/
def dist2 (a b : SkelNode) : Int :=
  (a.x - b.x) ^ 2 + (a.y - b.y) ^ 2 + (a.z - b.z) ^ 2

/-- First strict minimum of a list of candidates scored by distance
(tie-break: first in insertion order). -/
def pickMinAux : SkelNode × Int → List (SkelNode × Int) → SkelNode × Int
  | best, [] => best
  | best, p :: rest => pickMinAux (if p.2 < best.2 then p else best) rest

/-- Modelled from the spec: one stitching step of `utils.heal_skeleton`
(utils.py is not part of the snapshot).  With at least two fragments, the
component of the first root is the main component; the second root's
fragment is attached by computing all pairwise distances between main and
fragment nodes and redirecting the fragment's root to the nearest main node
(first in insertion order among ties). -/
def healStep (g : Skeleton) : Skeleton :=
  match roots g with
  | r0 :: r1 :: _ =>
    let main := g.filter (fun n => decide (rootOf g n.node_id = some r0.node_id))
    let frag := g.filter (fun n => decide (rootOf g n.node_id = some r1.node_id))
    match main.flatMap (fun m => frag.map (fun c => (m, dist2 m c))) with
    | [] => g
    | p :: ps => setParent g r1.node_id (pickMinAux p ps).1.node_id
  | _ => g

/-- Iterate stitching until at most one root remains (`g.length` steps always
suffice). -/
def heal_aux : Nat → Skeleton → Skeleton
  | 0, g => g
  | fuel + 1, g => if (roots g).length ≤ 1 then g else heal_aux fuel (healStep g)

/-- Modelled from the spec: `utils.heal_skeleton` — repeatedly attach the
nearest remaining fragment until the graph has a single component. -/
def heal_skeleton (g : Skeleton) : Skeleton :=
  heal_aux g.length g

/-- The predecessor of `i` in a path list: `some p` when `p` immediately
precedes `i`. -/
def prevInChain : List Int → Int → Option Int
  | a :: b :: rest, i => if b = i then some a else prevInChain (b :: rest) i
  | _, _ => none

/-- Modelled from the spec: `utils.reroot_skeleton` (utils.py is not part of
the snapshot).  Compute the path from `nr` up to the current root via parent
pointers, then reverse the parent direction along exactly that path: `nr`
becomes the root and each path node's parent becomes its path predecessor;
nodes off the path are untouched.  An absent `nr` leaves the graph
unchanged (the source raises `NotFoundError`).  `rerootFn` is the per-node
update for the path `l` ending at the old root. -/
def rerootFn (nr : Int) (l : List Int) (n : SkelNode) : SkelNode :=
  if n.node_id = nr then { n with parent_id := -1 }
  else
    match prevInChain l n.node_id with
    | some p => { n with parent_id := p }
    | none => n

/-- Apply the path reversal to every node of the graph. -/
def reroot_skeleton (g : Skeleton) (nr : Int) : Skeleton :=
  match chain g nr with
  | none => g
  | some l => g.map (rerootFn nr l)

/-- Undirected adjacency: some node has id `a` and parent `b`, or
conversely (parent edges to `-1` are not edges). -/
def adjacent (g : Skeleton) (a b : Int) : Prop :=
  ∃ n ∈ g, n.parent_id ≠ -1 ∧
    ((n.node_id = a ∧ n.parent_id = b) ∨ (n.node_id = b ∧ n.parent_id = a))

/-- Undirected connectivity: the reflexive-transitive closure of
adjacency. -/
def Connected (g : Skeleton) (a b : Int) : Prop :=
  Relation.ReflTransGen (adjacent g) a b

/-- The module-level connection defaults of `dvidtools.fetch` (the globals
`server`, `node`, `user`; absent until set). -/
structure DvidGlobals where
  server : Option String
  node : Option String
  user : Option String
  deriving Repr, DecidableEq

/-- `fetch.set_param` (fetch.py lines 22-26): overwrite each global default
for which a non-None value is passed; leave the rest untouched. -/
def set_param (g : DvidGlobals) (server node user : Option String) : DvidGlobals :=
  { server := match server with | some v => some v | none => g.server
    node := match node with | some v => some v | none => g.node
    user := match user with | some v => some v | none => g.user }

/-- `fetch.eval_param` (fetch.py lines 29-38): for each parameter, keep an
explicitly passed value and fall back to the global default only when the
parameter is None; the globals themselves are only read, never written (the
second component is the resulting global state). -/
def eval_param (g : DvidGlobals) (server node user : Option String) :
    (Option String × Option String × Option String) × DvidGlobals :=
  (((match server with | some v => some v | none => g.server),
    (match node with | some v => some v | none => g.node),
    (match user with | some v => some v | none => g.user)), g)

/-- A voxel coordinate. -/
abbrev Voxel := Int × Int × Int

/-- The six axis-aligned neighbors of a voxel. -/
def vneighbors (v : Voxel) : List Voxel :=
  [(v.1 + 1, v.2.1, v.2.2), (v.1 - 1, v.2.1, v.2.2),
   (v.1, v.2.1 + 1, v.2.2), (v.1, v.2.1 - 1, v.2.2),
   (v.1, v.2.1, v.2.2 + 1), (v.1, v.2.1, v.2.2 - 1)]

/-- Modelled from the spec: `mesh.remove_surface_voxels` (mesh.py is not part
of the snapshot).  Erode removes every voxel that has at least one of its
6-connected neighbors absent, keeping only interior voxels; it returns the
empty set when no interior voxels remain. -/
def remove_surface_voxels (l : List Voxel) : List Voxel :=
  l.filter (fun v => (vneighbors v).all (fun w => decide (w ∈ l)))

/-- The erosion loop of `get_body_position` (fetch.py lines 552-559 and
573-580): repeatedly erode, but stop (keeping the previous set) as soon as
an erosion step would empty the set.  Fuel-indexed; `l.length` fuel always
suffices. -/
def erode_loop : Nat → List Voxel → List Voxel
  | 0, v => v
  | fuel+1, v =>
    let eroded := remove_surface_voxels v
    if eroded.length = 0 then v else erode_loop fuel eroded

/-- The fields of the segmentation info consumed by `get_neuron`
(fetch.py lines 899-902): block size, voxel size and `MaxDownresLevel`. -/
structure SegInfo where
  blockSize : Voxel
  voxelSize : Voxel
  maxDownresLevel : Nat
  deriving Repr, DecidableEq

/-- A sparse-volume resolution: `"COARSE"` or an integer scale. -/
inductive NeuronScale where
  | coarse : NeuronScale
  | level : Nat → NeuronScale
  deriving Repr, DecidableEq

/-- The return type of `get_neuron` (the `MESH` branch hands off to the
external mesher and is out of scope). -/
inductive RetType where
  | index : RetType
  | coords : RetType
  deriving Repr, DecidableEq

/-- Elementwise multiplication by the per-axis voxel-size vector. -/
def elemMul (vs v : Voxel) : Voxel :=
  (v.1 * vs.1, v.2.1 * vs.2.1, v.2.2 * vs.2.2)

/-- The per-axis voxel size at integer scale `i`: `VoxelSize * 2**i`. -/
def vsize_at (info : SegInfo) (i : Nat) : Voxel :=
  (info.voxelSize.1 * 2 ^ i, info.voxelSize.2.1 * 2 ^ i, info.voxelSize.2.2 * 2 ^ i)

/-- The `vsize` mapping built by `get_neuron` (fetch.py lines 901-902):
`{'COARSE': BlockSize}` updated with `{i: VoxelSize * 2**i}` for
`i in range(MaxDownresLevel)` — so the integer keys are
`0 .. MaxDownresLevel - 1` only. -/
def vsize_lookup (info : SegInfo) : NeuronScale → Option Voxel
  | NeuronScale.coarse => some info.blockSize
  | NeuronScale.level i => if i < info.maxDownresLevel then some (vsize_at info i) else none

/-- The scale validation of `get_neuron` (fetch.py lines 904-905): only an
integer scale strictly greater than `MaxDownresLevel` is rejected. -/
def scale_accepted (info : SegInfo) : NeuronScale → Bool
  | NeuronScale.coarse => true
  | NeuronScale.level i => decide (i ≤ info.maxDownresLevel)

/-- The post-decode return stage of `get_neuron` (fetch.py lines 940-945):
`INDEX` returns the decoded voxels as is; `COORDS` returns
`voxels * vsize[scale]` (elementwise), which is `none` (a `KeyError`) when
`scale` is absent from the `vsize` mapping. -/
def get_neuron_ret (info : SegInfo) (scale : NeuronScale) (voxels : List Voxel) :
    RetType → Option (List Voxel)
  | RetType.index => some voxels
  | RetType.coords => (vsize_lookup info scale).map (fun vs => voxels.map (elemMul vs))

/-- A voxel run: `length` contiguous voxels starting at `(x, y, z)`,
extending along the x axis. -/
structure VoxelRun where
  x : Int
  y : Int
  z : Int
  length : Nat
  deriving Repr, DecidableEq

/-- The parsed sparse-volume header: reserved byte, dimensionality, run
encoding mode, reserved byte, run count. -/
structure SVHeader where
  reserved1 : Nat
  dims : Nat
  mode : Nat
  reserved2 : Nat
  count : Nat
  deriving Repr, DecidableEq

/-- Read a 32-bit little-endian unsigned integer from a byte stream. -/
def readU32 : List Nat → Option (Nat × List Nat)
  | b0 :: b1 :: b2 :: b3 :: rest =>
    some (b0 + 256 * b1 + 65536 * b2 + 16777216 * b3, rest)
  | _ => none

/-- Reinterpret a 32-bit unsigned value as a signed (two's complement)
coordinate. -/
def toI32 (u : Nat) : Int :=
  if u < 2 ^ 31 then (u : Int) else (u : Int) - 2 ^ 32

/-- Read one run record `(x: i32, y: i32, z: i32, length: i32)`,
little-endian. -/
def readRun (b : List Nat) : Option (VoxelRun × List Nat) :=
  match readU32 b with
  | none => none
  | some (ux, b1) =>
    match readU32 b1 with
    | none => none
    | some (uy, b2) =>
      match readU32 b2 with
      | none => none
      | some (uz, b3) =>
        match readU32 b3 with
        | none => none
        | some (ulen, b4) => some (⟨toI32 ux, toI32 uy, toI32 uz, ulen⟩, b4)

/-- Read exactly `count` run records, requiring the buffer to end with the
run table (total length must match the declared count). -/
def readRuns : Nat → List Nat → Option (List VoxelRun)
  | 0, rest => if rest.isEmpty then some [] else none
  | k + 1, b =>
    match readRun b with
    | none => none
    | some (r, rest) => (readRuns k rest).map (fun rs => r :: rs)

/-- Modelled from the spec: `decode.decode_sparsevol` (decode.py is not part
of the snapshot).  The wire format is a fixed header — byte flags
`(reserved, dimensionality, run mode, reserved)` followed by a 32-bit
little-endian run count — then `count` records `(x, y, z, length)` of
little-endian 32-bit integers.  Dimensionality other than 3 is rejected, and
the buffer length must match the declared run count. -/
def decode_sparsevol (b : List Nat) : Option (SVHeader × List VoxelRun) :=
  match b with
  | r0 :: dims :: mode :: r1 :: rest =>
    if dims = 3 then
      match readU32 rest with
      | none => none
      | some (count, rest2) =>
        (readRuns count rest2).map (fun rs => (⟨r0, dims, mode, r1, count⟩, rs))
    else none
  | _ => none

/-- Materialize one run into `length` consecutive voxel coordinates
`x+0 … x+length-1` at fixed `y, z`. -/
def expandRun (r : VoxelRun) : List Voxel :=
  (List.range r.length).map (fun (i : Nat) => (r.x + (i : Int), r.y, r.z))

/-- Materialize a run list into discrete voxel coordinates. -/
def expand (runs : List VoxelRun) : List Voxel :=
  runs.flatMap expandRun

/-- Two runs cover disjoint voxels: different row, or non-overlapping x
intervals. -/
def RunsDisjoint (r s : VoxelRun) : Prop :=
  r.y ≠ s.y ∨ r.z ≠ s.z ∨ r.x + (r.length : Int) ≤ s.x ∨ s.x + (s.length : Int) ≤ r.x

instance : DecidableRel RunsDisjoint := fun r s => by
  unfold RunsDisjoint; infer_instance

/-- The decimal digit value of a character, if it is one of `'0'..'9'`. -/
def charDigit? (c : Char) : Option Nat :=
  if 48 ≤ c.toNat ∧ c.toNat ≤ 57 then some (c.toNat - 48) else none

/-- Little-endian decimal digit characters of `n`, fuel-indexed so that the
definition unfolds by structural recursion (`n` itself is enough fuel). -/
def renderNatAux : Nat → Nat → List Char
  | 0, _ => []
  | fuel + 1, n =>
    if n = 0 then [] else Nat.digitChar (n % 10) :: renderNatAux fuel (n / 10)

/-- Render a natural number in decimal. -/
def renderNat (n : Nat) : List Char :=
  if n = 0 then ['0'] else (renderNatAux n n).reverse

/-- Parse every character of a token as a decimal digit (most significant
first). -/
def digitsOf? : List Char → Option (List Nat)
  | [] => some []
  | c :: rest =>
    match charDigit? c, digitsOf? rest with
    | some d, some ds => some (d :: ds)
    | _, _ => none

/-- Parse a non-empty all-digit token as a natural number. -/
def parseNatChars (cs : List Char) : Option Nat :=
  if cs.isEmpty then none
  else (digitsOf? cs).map (fun ds => Nat.ofDigits 10 ds.reverse)

/-- Render an integer in decimal, with a leading minus sign when negative. -/
def renderInt (n : Int) : List Char :=
  if n < 0 then '-' :: renderNat n.natAbs else renderNat n.natAbs

/-- Parse an optionally minus-signed decimal token as an integer. -/
def parseIntChars : List Char → Option Int
  | [] => none
  | c :: rest =>
    if c = '-' then (parseNatChars rest).map (fun (m : Nat) => -(m : Int))
    else (parseNatChars (c :: rest)).map (fun (m : Nat) => (m : Int))

/-- Whitespace splitting: accumulate the current token (reversed) and emit it
at each run of blanks; empty tokens are dropped. -/
def splitWSAux : List Char → List Char → List (List Char)
  | [], acc => if acc.isEmpty then [] else [acc.reverse]
  | c :: rest, acc =>
    if c = ' ' ∨ c = '\t' then
      if acc.isEmpty then splitWSAux rest [] else acc.reverse :: splitWSAux rest []
    else splitWSAux rest (c :: acc)

/-- Split a line into whitespace-separated tokens. -/
def splitWS (l : List Char) : List (List Char) :=
  splitWSAux l []

/-- Join tokens with single spaces. -/
def joinTokens (ts : List (List Char)) : List Char :=
  List.intercalate [' '] ts

/-- Canonical whitespace: every token run separated by exactly one space, no
leading or trailing blanks. -/
def canonicalLine (l : List Char) : List Char :=
  joinTokens (splitWS l)

/-- A comment line starts with `#`. -/
def isComment (l : List Char) : Bool :=
  match l with
  | c :: _ => decide (c = '#')
  | [] => false

/-- Parse one data row `node_id type x y z radius parent_id`. -/
def parseLine (l : List Char) : Option SkelNode :=
  match splitWS l with
  | [t1, t2, t3, t4, t5, t6, t7] =>
    match parseIntChars t1, parseIntChars t2, parseIntChars t3, parseIntChars t4,
        parseIntChars t5, parseIntChars t6, parseIntChars t7 with
    | some a, some b, some c, some d, some e, some f, some g =>
      some ⟨a, g, c, d, e, f, b⟩
    | _, _, _, _, _, _, _ => none
  | _ => none

/-- Parse all data rows; fail on the first malformed row. -/
def parseRows : List (List Char) → Option (List SkelNode)
  | [] => some []
  | l :: rest =>
    match parseLine l, parseRows rest with
    | some n, some ns => some (n :: ns)
    | _, _ => none

/-- Modelled from the spec: `utils.parse_swc_str` (utils.py is not part of
the snapshot).  The leading `#`-comment lines are preserved verbatim as
header metadata; every following line must be a well-formed data row
`node_id type x y z radius parent_id` with numeric fields and duplicate-free
node ids, otherwise parsing fails. -/
def parse_swc (t : List (List Char)) : Option (List (List Char) × List SkelNode) :=
  match parseRows (t.dropWhile isComment) with
  | none => none
  | some ns =>
    if (ns.map (·.node_id)).Nodup then some (t.takeWhile isComment, ns) else none

/-- Serialize one node as a canonical single-space-separated row. -/
def serializeLine (n : SkelNode) : List Char :=
  joinTokens [renderInt n.node_id, renderInt n.label, renderInt n.x, renderInt n.y,
    renderInt n.z, renderInt n.radius, renderInt n.parent_id]

/-- Modelled from the spec: `utils.save_swc` (utils.py is not part of the
snapshot).  Emit the preserved comment header followed by one canonical row
per node, columns in the order `node_id type x y z radius parent_id`. -/
def save_swc (header : List (List Char)) (ns : List SkelNode) : List (List Char) :=
  header ++ ns.map serializeLine

/-- A table up to canonical whitespace: comment lines verbatim, data lines
with canonical single-space separation. -/
def canonicalTable (t : List (List Char)) : List (List Char) :=
  t.map (fun l => if isComment l then l else canonicalLine l)

/-- A numeric token in canonical form: it parses to an integer whose
canonical rendering is the token itself. -/
def canonicalTok (tok : List Char) : Bool :=
  match parseIntChars tok with
  | some n => renderInt n == tok
  | none => false

/-- A concrete two-row table with a comment header, for the round-trip
witness. -/
def exTable : List (List Char) :=
  [['#', ' ', 'h', 'd', 'r'],
   ['1', ' ', '0', ' ', ' ', '1', '0', ' ', '2', '0', ' ', '3', '0', ' ', '5', ' ', '-', '1'],
   ['2', ' ', '0', ' ', '1', '1', ' ', '2', '1', ' ', '3', '1', ' ', '4', ' ', '1']]

/-- The nodes parsed from `exTable`. -/
def exNodes : List SkelNode :=
  [⟨1, -1, 10, 20, 30, 5, 0⟩, ⟨2, 1, 11, 21, 31, 4, 0⟩]

/-- A concrete two-fragment forest for the healing witness. -/
def exForest : Skeleton :=
  [⟨1, -1, 0, 0, 0, 1, 0⟩, ⟨2, 1, 1, 0, 0, 1, 0⟩,
   ⟨3, -1, 10, 0, 0, 1, 0⟩, ⟨4, 3, 11, 0, 0, 1, 0⟩]

/-- The healed 5-node chain `1→2→3→4→5` of the specification scenario. -/
def exChain5 : Skeleton :=
  [⟨1, 2, 0, 0, 0, 1, 0⟩, ⟨2, 3, 1, 0, 0, 1, 0⟩, ⟨3, 4, 2, 0, 0, 1, 0⟩,
   ⟨4, 5, 3, 0, 0, 1, 0⟩, ⟨5, -1, 4, 0, 0, 1, 0⟩]

/-- The example buffer of the specification scenario: header
`(0, 3, 0, 0, count=2)` followed by runs `(0,0,0,3)` and `(5,0,0,2)`. -/
def exampleBuffer : List Nat :=
  [0, 3, 0, 0, 2, 0, 0, 0,
   0, 0, 0, 0, 0, 0, 0, 0, 0, 0, 0, 0, 3, 0, 0, 0,
   5, 0, 0, 0, 0, 0, 0, 0, 0, 0, 0, 0, 2, 0, 0, 0]

end DvidTools

namespace DvidTools

/-- Digit characters decode back to their digit value. -/
theorem charDigit_digitChar {d : Nat} (hd : d < 10) :
    charDigit? (Nat.digitChar d) = some d := by
  interval_cases d <;> decide

/-- Digit characters are not the minus sign. -/
theorem digitChar_ne_dash {d : Nat} (hd : d < 10) : Nat.digitChar d ≠ '-' := by
  interval_cases d <;> decide

/-- With enough fuel, `renderNatAux` computes the decimal digits. -/
theorem renderNatAux_eq_digits : ∀ (fuel n : Nat), n ≤ fuel →
    renderNatAux fuel n = (Nat.digits 10 n).map Nat.digitChar := by
  intro fuel
  induction fuel with
  | zero =>
    intro n hn
    have : n = 0 := Nat.le_zero.mp hn
    subst this
    simp [renderNatAux]
  | succ fuel ih =>
    intro n hn
    by_cases h0 : n = 0
    · subst h0
      simp [renderNatAux]
    · show (if n = 0 then []
        else Nat.digitChar (n % 10) :: renderNatAux fuel (n / 10)) = _
      rw [if_neg h0, Nat.digits_def' (by norm_num) (Nat.pos_of_ne_zero h0), List.map_cons]
      congr 1
      refine ih (n / 10) ?_
      have := Nat.div_lt_self (Nat.pos_of_ne_zero h0) (by norm_num : 1 < 10)
      omega

/-- `renderNat` agrees with the `Nat.digits`-based rendering. -/
theorem renderNat_eq (n : Nat) :
    renderNat n = if n = 0 then ['0'] else ((Nat.digits 10 n).map Nat.digitChar).reverse := by
  unfold renderNat
  by_cases h0 : n = 0
  · rw [if_pos h0, if_pos h0]
  · rw [if_neg h0, if_neg h0, renderNatAux_eq_digits n n le_rfl]

/-- A token of digit characters parses back to the digit list. -/
theorem digitsOf_map_digitChar {ds : List Nat} (h : ∀ d ∈ ds, d < 10) :
    digitsOf? (ds.map Nat.digitChar) = some ds := by
  induction ds with
  | nil => rfl
  | cons d ds ih =>
    have hd := h d (List.mem_cons_self d ds)
    have hds := ih (fun e he => h e (List.mem_cons_of_mem d he))
    simp only [List.map_cons, digitsOf?, charDigit_digitChar hd, hds]

/-- Decimal rendering is never empty. -/
theorem renderNat_ne_nil (n : Nat) : renderNat n ≠ [] := by
  rw [renderNat_eq]
  by_cases hn : n = 0
  · simp [hn]
  · rw [if_neg hn]
    simp only [ne_eq, List.reverse_eq_nil_iff, List.map_eq_nil_iff]
    exact Nat.digits_ne_nil_iff_ne_zero.mpr hn

/-- Every character of a decimal rendering is a digit character. -/
theorem mem_renderNat {n : Nat} {c : Char} (h : c ∈ renderNat n) :
    ∃ d, d < 10 ∧ c = Nat.digitChar d := by
  rw [renderNat_eq] at h
  by_cases hn : n = 0
  · rw [if_pos hn] at h
    simp only [List.mem_singleton] at h
    exact ⟨0, by omega, h⟩
  · rw [if_neg hn] at h
    rw [List.mem_reverse] at h
    obtain ⟨d, hd, rfl⟩ := List.mem_map.mp h
    exact ⟨d, Nat.digits_lt_base (by omega) hd, rfl⟩

/-- Parsing inverts decimal rendering of naturals. -/
theorem parseNat_renderNat (n : Nat) : parseNatChars (renderNat n) = some n := by
  by_cases hn : n = 0
  · subst hn; decide
  · have hne : Nat.digits 10 n ≠ [] := Nat.digits_ne_nil_iff_ne_zero.mpr hn
    rw [renderNat_eq]
    unfold parseNatChars
    rw [if_neg hn]
    rw [if_neg (by
      simp only [List.isEmpty_eq_true, List.reverse_eq_nil_iff, List.map_eq_nil_iff]
      exact hne)]
    rw [← List.map_reverse]
    rw [digitsOf_map_digitChar (fun d hd =>
      Nat.digits_lt_base (by omega) (List.mem_reverse.mp hd))]
    simp [Nat.ofDigits_digits]

/-- Parsing inverts decimal rendering of integers. -/
theorem parseInt_renderInt (n : Int) : parseIntChars (renderInt n) = some n := by
  unfold renderInt
  by_cases hn : n < 0
  · rw [if_pos hn]
    show (if ('-' : Char) = '-'
        then (parseNatChars (renderNat n.natAbs)).map (fun (m : Nat) => -(m : Int))
        else (parseNatChars ('-' :: renderNat n.natAbs)).map (fun (m : Nat) => (m : Int))) =
      some n
    rw [if_pos rfl, parseNat_renderNat]
    exact congrArg some (show -((n.natAbs : Nat) : Int) = n by omega)
  · rw [if_neg hn]
    obtain ⟨c, rest, hcr⟩ := List.exists_cons_of_ne_nil (renderNat_ne_nil n.natAbs)
    rw [hcr]
    have hcd : c ≠ '-' := by
      obtain ⟨d, hd, rfl⟩ := mem_renderNat (by rw [hcr]; exact List.mem_cons_self c rest)
      exact digitChar_ne_dash hd
    show (if c = '-'
        then (parseNatChars rest).map (fun (m : Nat) => -(m : Int))
        else (parseNatChars (c :: rest)).map (fun (m : Nat) => (m : Int))) = some n
    rw [if_neg hcd, ← hcr, parseNat_renderNat]
    exact congrArg some (show ((n.natAbs : Nat) : Int) = n by omega)

/-- Splitting with a non-empty accumulator emits a first token led by the
accumulated characters. -/
theorem splitWSAux_acc_ne : ∀ (rest acc : List Char), acc ≠ [] →
    ∃ u ts, splitWSAux rest acc = (acc.reverse ++ u) :: ts := by
  intro rest
  induction rest with
  | nil =>
    intro acc hacc
    refine ⟨[], [], ?_⟩
    show (if acc.isEmpty then [] else [acc.reverse]) = (acc.reverse ++ []) :: []
    rw [if_neg (by simpa using hacc)]
    simp
  | cons c r ih =>
    intro acc hacc
    have hdef : splitWSAux (c :: r) acc =
        (if c = ' ' ∨ c = '\t' then
          (if acc.isEmpty then splitWSAux r [] else acc.reverse :: splitWSAux r [])
        else splitWSAux r (c :: acc)) := rfl
    rw [hdef]
    by_cases hws : c = ' ' ∨ c = '\t'
    · rw [if_pos hws, if_neg (by simpa using hacc)]
      exact ⟨[], splitWSAux r [], by simp⟩
    · rw [if_neg hws]
      obtain ⟨u, ts, heq⟩ := ih (c :: acc) (by simp)
      exact ⟨c :: u, ts, by rw [heq]; simp⟩

/-- A line starting with `#` splits into a first token starting with `#`. -/
theorem splitWS_hash (rest : List Char) :
    ∃ u ts, splitWS ('#' :: rest) = ('#' :: u) :: ts := by
  have hstep : splitWS ('#' :: rest) = splitWSAux rest ['#'] := by
    have hdef : splitWS ('#' :: rest) =
        (if ('#' : Char) = ' ' ∨ ('#' : Char) = '\t' then
          (if (List.isEmpty ([] : List Char)) then splitWSAux rest []
            else ([] : List Char).reverse :: splitWSAux rest [])
        else splitWSAux rest ['#']) := rfl
    rw [hdef, if_neg (by decide)]
  obtain ⟨u, ts, heq⟩ := splitWSAux_acc_ne rest ['#'] (by simp)
  exact ⟨u, ts, by rw [hstep, heq]; rfl⟩

/-- A token starting with `#` is not numeric. -/
theorem parseIntChars_hash (u : List Char) : parseIntChars ('#' :: u) = none := by
  show (if ('#' : Char) = '-'
      then (parseNatChars u).map (fun (m : Nat) => -(m : Int))
      else (parseNatChars ('#' :: u)).map (fun (m : Nat) => (m : Int))) = none
  rw [if_neg (by decide)]
  have h1 : digitsOf? ('#' :: u) = none := by
    show (match charDigit? '#', digitsOf? u with
      | some d, some ds => some (d :: ds)
      | _, _ => none) = none
    rw [show charDigit? '#' = none by decide]
  have h2 : parseNatChars ('#' :: u) = none := by
    unfold parseNatChars
    rw [if_neg (by simp), h1]
    rfl
  rw [h2]
  rfl

/-- Inversion of a successful row parse: the line splits into exactly seven
tokens, which parse to the node's fields in column order. -/
theorem parseLine_some {l : List Char} {n : SkelNode} (h : parseLine l = some n) :
    ∃ t1 t2 t3 t4 t5 t6 t7, splitWS l = [t1, t2, t3, t4, t5, t6, t7] ∧
      parseIntChars t1 = some n.node_id ∧ parseIntChars t2 = some n.label ∧
      parseIntChars t3 = some n.x ∧ parseIntChars t4 = some n.y ∧
      parseIntChars t5 = some n.z ∧ parseIntChars t6 = some n.radius ∧
      parseIntChars t7 = some n.parent_id := by
  unfold parseLine at h
  split at h
  case _ t1 t2 t3 t4 t5 t6 t7 heq =>
    split at h
    case _ a b c d e f g h1 h2 h3 h4 h5 h6 h7 =>
      injection h with h
      subst h
      exact ⟨t1, t2, t3, t4, t5, t6, t7, heq, h1, h2, h3, h4, h5, h6, h7⟩
    case _ =>
      exact absurd h (by simp)
  case _ =>
    exact absurd h (by simp)

/-- A successfully parsed row is not a comment line. -/
theorem parseLine_not_comment {l : List Char} {n : SkelNode}
    (h : parseLine l = some n) : isComment l = false := by
  obtain ⟨t1, t2, t3, t4, t5, t6, t7, heq, h1, -⟩ := parseLine_some h
  cases l with
  | nil => rfl
  | cons c r =>
    show decide (c = '#') = false
    rw [decide_eq_false_iff_not]
    intro hc
    subst hc
    obtain ⟨u, ts, hsp⟩ := splitWS_hash r
    rw [heq] at hsp
    have ht1 : t1 = '#' :: u := by
      injection hsp
    rw [ht1, parseIntChars_hash] at h1
    exact Option.noConfusion h1

/-- A canonical token renders back from its parsed value. -/
theorem canonicalTok_spec {tok : List Char} {v : Int}
    (hc : canonicalTok tok = true) (hp : parseIntChars tok = some v) :
    renderInt v = tok := by
  unfold canonicalTok at hc
  rw [hp] at hc
  exact beq_iff_eq.mp hc

/-- Serializing a parsed row reproduces the line up to canonical
whitespace. -/
theorem serializeLine_canonical {l : List Char} {n : SkelNode}
    (h : parseLine l = some n) (hc : ∀ tok ∈ splitWS l, canonicalTok tok = true) :
    serializeLine n = canonicalLine l := by
  obtain ⟨t1, t2, t3, t4, t5, t6, t7, heq, h1, h2, h3, h4, h5, h6, h7⟩ := parseLine_some h
  have hct : ∀ tok ∈ [t1, t2, t3, t4, t5, t6, t7], canonicalTok tok = true := by
    intro tok htok
    exact hc tok (by rw [heq]; exact htok)
  unfold serializeLine canonicalLine
  rw [heq]
  rw [canonicalTok_spec (hct t1 (by simp)) h1, canonicalTok_spec (hct t2 (by simp)) h2,
    canonicalTok_spec (hct t3 (by simp)) h3, canonicalTok_spec (hct t4 (by simp)) h4,
    canonicalTok_spec (hct t5 (by simp)) h5, canonicalTok_spec (hct t6 (by simp)) h6,
    canonicalTok_spec (hct t7 (by simp)) h7]

/-- Serializing all parsed rows reproduces the data lines up to canonical
whitespace. -/
theorem parseRows_canonical : ∀ (ls : List (List Char)) (ns : List SkelNode),
    parseRows ls = some ns →
    (∀ l ∈ ls, ∀ tok ∈ splitWS l, canonicalTok tok = true) →
    ls.map (fun l => if isComment l then l else canonicalLine l) =
      ns.map serializeLine := by
  intro ls
  induction ls with
  | nil =>
    intro ns h _
    have : ns = [] := by
      injection h with h
      exact h.symm
    simp [this]
  | cons l rest ih =>
    intro ns h hc
    unfold parseRows at h
    split at h
    case _ n ns' hn hns =>
      injection h with h
      subst h
      have hnotc := parseLine_not_comment hn
      simp only [List.map_cons, hnotc, if_neg, Bool.false_eq_true, not_false_iff]
      rw [serializeLine_canonical hn (hc l (List.mem_cons_self l rest))]
      rw [ih ns' hns (fun l' hl' => hc l' (List.mem_cons_of_mem l hl'))]
    case _ =>
      exact absurd h (by simp)

/-- C3: serializing the parse of a well-formed skeleton table (leading
comment header, seven canonical numeric tokens per data row, duplicate-free
ids) returns the table itself up to canonical whitespace. -/
theorem swc_roundtrip (t hd : List (List Char)) (ns : List SkelNode)
    (hcanon : ∀ l ∈ t.dropWhile isComment, ∀ tok ∈ splitWS l, canonicalTok tok = true)
    (hp : parse_swc t = some (hd, ns)) :
    save_swc hd ns = canonicalTable t := by
  unfold parse_swc at hp
  split at hp
  case _ => exact absurd hp (by simp)
  case _ ns' hrows =>
    rw [if_pos] at hp
    swap
    · by_contra hnd
      rw [if_neg hnd] at hp
      exact Option.noConfusion hp
    injection hp with hp
    have hhd : hd = t.takeWhile isComment := congrArg Prod.fst hp.symm
    have hns : ns = ns' := congrArg Prod.snd hp.symm
    subst hhd
    subst hns
    unfold canonicalTable save_swc
    conv_rhs => rw [← List.takeWhile_append_dropWhile (p := isComment) (l := t)]
    rw [List.map_append]
    congr 1
    · have : ∀ l ∈ t.takeWhile isComment,
          (if isComment l then l else canonicalLine l) = l := by
        intro l hl
        rw [if_pos (List.mem_takeWhile_imp hl)]
      rw [List.map_congr_left this]
      simp
    · exact (parseRows_canonical (t.dropWhile isComment) ns hrows hcanon).symm

/-- Witness for C3: the round trip applied to the concrete table. -/
theorem swc_roundtrip_witness :
    save_swc [['#', ' ', 'h', 'd', 'r']] exNodes = canonicalTable exTable :=
  swc_roundtrip exTable [['#', ' ', 'h', 'd', 'r']] exNodes (by decide) (by decide)

end DvidTools

namespace DvidTools

/-- Unfolding of one chain step. -/
theorem chainAux_succ (g : Skeleton) (f : Nat) (i : Int) :
    chainAux g (f + 1) i =
      match findNode g i with
      | none => none
      | some n =>
        if n.parent_id = -1 then some [i]
        else (chainAux g f n.parent_id).map (fun l => i :: l) := rfl

/-- A found node is a member with the looked-up id. -/
theorem findNode_some {g : Skeleton} {i : Int} {n : SkelNode}
    (h : findNode g i = some n) : n ∈ g ∧ n.node_id = i :=
  ⟨List.mem_of_find?_eq_some h, by simpa using List.find?_some h⟩

/-- With duplicate-free ids, looking up a member's id finds that member. -/
theorem findNode_self {g : Skeleton} (hnd : (g.map (·.node_id)).Nodup) {n : SkelNode}
    (hn : n ∈ g) : findNode g n.node_id = some n := by
  induction g with
  | nil => cases hn
  | cons m rest ih =>
    rw [List.map_cons, List.nodup_cons] at hnd
    rcases List.mem_cons.mp hn with rfl | hmem
    · show List.find? (fun x => x.node_id == n.node_id) (n :: rest) = some n
      rw [List.find?_cons_of_pos _ (by simp)]
    · have hne : (m.node_id == n.node_id) = false := by
        simp only [beq_eq_false_iff_ne, ne_eq]
        intro he
        exact hnd.1 (he ▸ List.mem_map.mpr ⟨n, hmem, rfl⟩)
      show List.find? (fun x => x.node_id == n.node_id) (m :: rest) = some n
      rw [List.find?_cons_of_neg _ (by simp [hne])]
      exact ih hnd.2 hmem

/-- Mapping an id-preserving function commutes with node lookup. -/
theorem findNode_map {φ : SkelNode → SkelNode} (hid : ∀ n, (φ n).node_id = n.node_id)
    (g : Skeleton) (i : Int) : findNode (g.map φ) i = (findNode g i).map φ := by
  induction g with
  | nil => rfl
  | cons m rest ih =>
    show List.find? (fun x => x.node_id == i) (φ m :: rest.map φ) = _
    by_cases hm : m.node_id = i
    · rw [List.find?_cons_of_pos _ (by simp [hid, hm])]
      rw [show findNode (m :: rest) i = some m from
        List.find?_cons_of_pos _ (by simp [hm])]
      rfl
    · rw [List.find?_cons_of_neg _ (by simp [hid, hm])]
      rw [show findNode (m :: rest) i = findNode rest i from
        List.find?_cons_of_neg _ (by simp [hm])]
      exact ih

/-- Successful chain lookups are fuel-monotone. -/
theorem chainAux_mono {g : Skeleton} : ∀ {f f' : Nat} {i : Int} {l : List Int},
    chainAux g f i = some l → f ≤ f' → chainAux g f' i = some l := by
  intro f
  induction f with
  | zero =>
    intro f' i l h _
    exact absurd h (by simp [chainAux])
  | succ f ih =>
    intro f' i l h hff
    obtain ⟨f'', rfl⟩ : ∃ f'', f' = f'' + 1 := ⟨f' - 1, by omega⟩
    rw [chainAux_succ] at h
    rw [chainAux_succ]
    cases hfind : findNode g i with
    | none =>
      rw [hfind] at h
      exact absurd h (by simp)
    | some n =>
      rw [hfind] at h
      dsimp only at h ⊢
      by_cases hp : n.parent_id = -1
      · rw [if_pos hp] at h ⊢; exact h
      · rw [if_neg hp] at h ⊢
        cases hc : chainAux g f n.parent_id with
        | none =>
          rw [hc] at h
          exact absurd h (by simp)
        | some t =>
          rw [hc] at h
          rw [ih hc (by omega)]
          exact h

/-- Chain results do not depend on the fuel. -/
theorem chainAux_unique {g : Skeleton} {f1 f2 : Nat} {i : Int} {l1 l2 : List Int}
    (h1 : chainAux g f1 i = some l1) (h2 : chainAux g f2 i = some l2) : l1 = l2 := by
  have m1 := chainAux_mono h1 (le_max_left f1 f2)
  have m2 := chainAux_mono h2 (le_max_right f1 f2)
  rw [m1] at m2
  injection m2

/-- A chain starts at its argument. -/
theorem chainAux_head {g : Skeleton} {f : Nat} {i : Int} {l : List Int}
    (h : chainAux g f i = some l) : ∃ t, l = i :: t := by
  cases f with
  | zero => exact absurd h (by simp [chainAux])
  | succ f =>
    rw [chainAux_succ] at h
    cases hfind : findNode g i with
    | none =>
      rw [hfind] at h
      exact absurd h (by simp)
    | some n =>
      rw [hfind] at h
      dsimp only at h
      by_cases hp : n.parent_id = -1
      · rw [if_pos hp] at h
        exact ⟨[], by injection h with h; exact h.symm⟩
      · rw [if_neg hp] at h
        cases hc : chainAux g f n.parent_id with
        | none =>
          rw [hc] at h
          exact absurd h (by simp)
        | some t =>
          rw [hc] at h
          have h' : some (i :: t) = some l := h
          exact ⟨t, by injection h' with h'; exact h'.symm⟩

/-- Every id on a chain is the id of some node. -/
theorem chainAux_mem_ids {g : Skeleton} : ∀ {f : Nat} {i : Int} {l : List Int},
    chainAux g f i = some l → ∀ j ∈ l, ∃ n ∈ g, n.node_id = j := by
  intro f
  induction f with
  | zero =>
    intro i l h
    exact absurd h (by simp [chainAux])
  | succ f ih =>
    intro i l h j hj
    rw [chainAux_succ] at h
    cases hfind : findNode g i with
    | none =>
      rw [hfind] at h
      exact absurd h (by simp)
    | some n =>
      obtain ⟨hnmem, hnid⟩ := findNode_some hfind
      rw [hfind] at h
      dsimp only at h
      by_cases hp : n.parent_id = -1
      · rw [if_pos hp] at h
        injection h with h
        subst h
        rw [List.mem_singleton] at hj
        exact ⟨n, hnmem, hj ▸ hnid⟩
      · rw [if_neg hp] at h
        cases hc : chainAux g f n.parent_id with
        | none =>
          rw [hc] at h
          exact absurd h (by simp)
        | some t =>
          rw [hc] at h
          have h' : some (i :: t) = some l := h
          injection h' with h'
          subst h'
          rcases List.mem_cons.mp hj with rfl | hjt
          · exact ⟨n, hnmem, hnid⟩
          · exact ih hc j hjt

/-- The default value of `getLastD` is irrelevant for non-empty lists. -/
theorem getLastD_of_ne_nil {t : List Int} (h : t ≠ []) (a b : Int) :
    t.getLastD a = t.getLastD b := by
  rw [List.getLastD_eq_getLast?, List.getLastD_eq_getLast?]
  cases hl : t.getLast? with
  | none => exact absurd (List.getLast?_eq_none_iff.mp hl) h
  | some x => rfl

/-- A chain ends at a root node. -/
theorem chainAux_last_root {g : Skeleton} : ∀ {f : Nat} {i : Int} {l : List Int},
    chainAux g f i = some l → ∃ r ∈ g, r.node_id = l.getLastD 0 ∧ r.parent_id = -1 := by
  intro f
  induction f with
  | zero =>
    intro i l h
    exact absurd h (by simp [chainAux])
  | succ f ih =>
    intro i l h
    rw [chainAux_succ] at h
    cases hfind : findNode g i with
    | none =>
      rw [hfind] at h
      exact absurd h (by simp)
    | some n =>
      obtain ⟨hnmem, hnid⟩ := findNode_some hfind
      rw [hfind] at h
      dsimp only at h
      by_cases hp : n.parent_id = -1
      · rw [if_pos hp] at h
        injection h with h
        subst h
        exact ⟨n, hnmem, by simpa using hnid, hp⟩
      · rw [if_neg hp] at h
        cases hc : chainAux g f n.parent_id with
        | none =>
          rw [hc] at h
          exact absurd h (by simp)
        | some t =>
          rw [hc] at h
          have h' : some (i :: t) = some l := h
          injection h' with h'
          subst h'
          obtain ⟨t', rfl⟩ := chainAux_head hc
          obtain ⟨r, hr, hrid, hrp⟩ := ih hc
          refine ⟨r, hr, ?_, hrp⟩
          have hcast : (i :: n.parent_id :: t').getLastD 0 =
              (n.parent_id :: t').getLastD i := List.getLastD_cons 0 i _
          rw [hrid, hcast]
          exact getLastD_of_ne_nil (by simp) 0 i

/-- From any id on the tail of a chain, a chain exists that is no longer
than the tail and reaches the same root. -/
theorem chainAux_suffix {g : Skeleton} : ∀ {f : Nat} {i : Int} {t : List Int} {j : Int},
    chainAux g f i = some (i :: t) → j ∈ t →
    ∃ f' m, chainAux g f' j = some m ∧ m.length ≤ t.length ∧
      m.getLastD 0 = (i :: t).getLastD 0 := by
  intro f
  induction f with
  | zero =>
    intro i t j h
    exact absurd h (by simp [chainAux])
  | succ f ih =>
    intro i t j h hj
    rw [chainAux_succ] at h
    cases hfind : findNode g i with
    | none =>
      rw [hfind] at h
      exact absurd h (by simp)
    | some n =>
      rw [hfind] at h
      dsimp only at h
      by_cases hp : n.parent_id = -1
      · rw [if_pos hp] at h
        have h' : some [i] = some (i :: t) := h
        simp only [Option.some.injEq, List.cons.injEq] at h'
        obtain ⟨-, ht⟩ := h'
        subst ht
        cases hj
      · rw [if_neg hp] at h
        cases hc : chainAux g f n.parent_id with
        | none =>
          rw [hc] at h
          exact absurd h (by simp)
        | some u =>
          rw [hc] at h
          have h' : some (i :: u) = some (i :: t) := h
          injection h' with h'
          have hut : u = t := by injection h'
          subst hut
          obtain ⟨t', rfl⟩ := chainAux_head hc
          have hlast : (n.parent_id :: t').getLastD 0 =
              (i :: n.parent_id :: t').getLastD 0 := by
            rw [show (i :: n.parent_id :: t').getLastD 0 =
              (n.parent_id :: t').getLastD i from List.getLastD_cons 0 i _]
            exact getLastD_of_ne_nil (by simp) 0 i
          rcases List.mem_cons.mp hj with rfl | hjt
          · exact ⟨f, n.parent_id :: t', hc, le_rfl, hlast⟩
          · obtain ⟨f', m, hm, hmlen, hmlast⟩ := ih hc hjt
            refine ⟨f', m, hm, by simp only [List.length_cons]; omega, ?_⟩
            rw [hmlast]
            exact hlast

/-- Chains never revisit an id. -/
theorem chainAux_nodup {g : Skeleton} : ∀ {f : Nat} {i : Int} {l : List Int},
    chainAux g f i = some l → l.Nodup := by
  intro f
  induction f with
  | zero =>
    intro i l h
    exact absurd h (by simp [chainAux])
  | succ f ih =>
    intro i l h
    obtain ⟨t, rfl⟩ := chainAux_head h
    have horig := h
    rw [chainAux_succ] at h
    cases hfind : findNode g i with
    | none =>
      rw [hfind] at h
      exact absurd h (by simp)
    | some n =>
      rw [hfind] at h
      dsimp only at h
      by_cases hp : n.parent_id = -1
      · rw [if_pos hp] at h
        have h' : some [i] = some (i :: t) := h
        simp only [Option.some.injEq, List.cons.injEq] at h'
        obtain ⟨-, ht⟩ := h'
        subst ht
        simp
      · rw [if_neg hp] at h
        cases hc : chainAux g f n.parent_id with
        | none =>
          rw [hc] at h
          exact absurd h (by simp)
        | some u =>
          rw [hc] at h
          have h' : some (i :: u) = some (i :: t) := h
          simp only [Option.some.injEq, List.cons.injEq] at h'
          obtain ⟨-, hut⟩ := h'
          subst hut
          rw [List.nodup_cons]
          refine ⟨?_, ih hc⟩
          intro hit
          obtain ⟨f', m, hm, hmlen, -⟩ := chainAux_suffix horig hit
          have hml := chainAux_unique hm horig
          subst hml
          simp at hmlen

/-- A chain of length `k` is reproduced with fuel `k`. -/
theorem chainAux_min_fuel {g : Skeleton} : ∀ {f : Nat} {i : Int} {l : List Int},
    chainAux g f i = some l → chainAux g l.length i = some l := by
  intro f
  induction f with
  | zero =>
    intro i l h
    exact absurd h (by simp [chainAux])
  | succ f ih =>
    intro i l h
    rw [chainAux_succ] at h
    cases hfind : findNode g i with
    | none =>
      rw [hfind] at h
      exact absurd h (by simp)
    | some n =>
      rw [hfind] at h
      dsimp only at h
      by_cases hp : n.parent_id = -1
      · rw [if_pos hp] at h
        have h' : some [i] = some l := h
        injection h' with h'
        subst h'
        show chainAux g (0 + 1) i = some [i]
        rw [chainAux_succ, hfind]
        dsimp only
        rw [if_pos hp]
      · rw [if_neg hp] at h
        cases hc : chainAux g f n.parent_id with
        | none =>
          rw [hc] at h
          exact absurd h (by simp)
        | some t =>
          rw [hc] at h
          have h' : some (i :: t) = some l := h
          injection h' with h'
          subst h'
          show chainAux g (t.length + 1) i = some (i :: t)
          rw [chainAux_succ, hfind]
          dsimp only
          rw [if_neg hp, ih hc]
          rfl

/-- Any successful chain lookup is reproduced at the canonical fuel, when
ids are duplicate-free. -/
theorem chain_of_chainAux {g : Skeleton} {f : Nat} {i : Int} {l : List Int}
    (h : chainAux g f i = some l) : chain g i = some l := by
  have hnodup := chainAux_nodup h
  have hsub : l ⊆ g.map (·.node_id) := by
    intro j hj
    obtain ⟨n, hn, hid⟩ := chainAux_mem_ids h j hj
    exact List.mem_map.mpr ⟨n, hn, hid⟩
  have hlen : l.length ≤ g.length := by
    have := (List.subperm_of_subset hnodup hsub).length_le
    simpa using this
  exact chainAux_mono (chainAux_min_fuel h) hlen

/-- A chain yields an undirected path from its start to its root. -/
theorem chainAux_connected {g : Skeleton} : ∀ {f : Nat} {i : Int} {l : List Int},
    chainAux g f i = some l → Connected g i (l.getLastD 0) := by
  intro f
  induction f with
  | zero =>
    intro i l h
    exact absurd h (by simp [chainAux])
  | succ f ih =>
    intro i l h
    rw [chainAux_succ] at h
    cases hfind : findNode g i with
    | none =>
      rw [hfind] at h
      exact absurd h (by simp)
    | some n =>
      obtain ⟨hnmem, hnid⟩ := findNode_some hfind
      rw [hfind] at h
      dsimp only at h
      by_cases hp : n.parent_id = -1
      · rw [if_pos hp] at h
        have h' : some [i] = some l := h
        injection h' with h'
        subst h'
        exact Relation.ReflTransGen.refl
      · rw [if_neg hp] at h
        cases hc : chainAux g f n.parent_id with
        | none =>
          rw [hc] at h
          exact absurd h (by simp)
        | some t =>
          rw [hc] at h
          have h' : some (i :: t) = some l := h
          injection h' with h'
          subst h'
          obtain ⟨t', rfl⟩ := chainAux_head hc
          have hadj : adjacent g i n.parent_id :=
            ⟨n, hnmem, hp, Or.inl ⟨hnid, rfl⟩⟩
          have htrans := ih hc
          have hlast : (i :: n.parent_id :: t').getLastD 0 =
              (n.parent_id :: t').getLastD 0 := by
            rw [show (i :: n.parent_id :: t').getLastD 0 =
              (n.parent_id :: t').getLastD i from List.getLastD_cons 0 i _]
            exact getLastD_of_ne_nil (by simp) i 0
          rw [hlast]
          exact Relation.ReflTransGen.head hadj htrans

/-- Chains are preserved under id-preserving maps that keep the parent of
every node on the chain. -/
theorem chainAux_map_preserve {g : Skeleton} {φ : SkelNode → SkelNode}
    (hid : ∀ n, (φ n).node_id = n.node_id) :
    ∀ {f : Nat} {i : Int} {l : List Int}, chainAux g f i = some l →
    (∀ n ∈ g, n.node_id ∈ l → (φ n).parent_id = n.parent_id) →
    chainAux (g.map φ) f i = some l := by
  intro f
  induction f with
  | zero =>
    intro i l h
    exact absurd h (by simp [chainAux])
  | succ f ih =>
    intro i l h hkeep
    obtain ⟨t, rfl⟩ := chainAux_head h
    rw [chainAux_succ] at h
    rw [chainAux_succ, findNode_map hid]
    cases hfind : findNode g i with
    | none =>
      rw [hfind] at h
      exact absurd h (by simp)
    | some n =>
      obtain ⟨hnmem, hnid⟩ := findNode_some hfind
      rw [hfind] at h
      simp only [Option.map_some'] at h ⊢
      have hppar : (φ n).parent_id = n.parent_id :=
        hkeep n hnmem (by rw [hnid]; exact List.mem_cons_self i t)
      rw [hppar]
      by_cases hp : n.parent_id = -1
      · rw [if_pos hp] at h ⊢
        exact h
      · rw [if_neg hp] at h ⊢
        cases hc : chainAux g f n.parent_id with
        | none =>
          rw [hc] at h
          exact absurd h (by simp)
        | some u =>
          rw [hc] at h
          have h' : some (i :: u) = some (i :: t) := h
          injection h' with h'
          have hut : u = t := by injection h'
          subst hut
          rw [ih hc (fun m hm hml => hkeep m hm (List.mem_cons_of_mem i hml))]
          exact h

/-- Node lookup in a parent-redirected graph. -/
theorem findNode_setParent (g : Skeleton) (i p j : Int) :
    findNode (setParent g i p) j =
      (findNode g j).map
        (fun n => if n.node_id = i then { n with parent_id := p } else n) :=
  findNode_map (fun n => by by_cases hm : n.node_id = i <;> simp [hm]) g j

/-- Grafting: after redirecting the root `rid` to `q`, any chain that used
to end at `rid` extends by the new chain of `q`. -/
theorem chainAux_graft {g : Skeleton} {rid q : Int} {r : SkelNode} {lq : List Int} {fq : Nat}
    (hr : findNode g rid = some r) (hrp : r.parent_id = -1) (hq0 : q ≠ -1)
    (hq : chainAux (setParent g rid q) fq q = some lq) :
    ∀ {f : Nat} {j : Int} {l : List Int}, chainAux g f j = some l →
    l.getLastD 0 = rid →
    chainAux (setParent g rid q) (f + lq.length) j = some (l ++ lq) := by
  intro f
  induction f with
  | zero =>
    intro j l h
    exact absurd h (by simp [chainAux])
  | succ f ih =>
    intro j l h hlast
    rw [chainAux_succ] at h
    cases hfind : findNode g j with
    | none =>
      rw [hfind] at h
      exact absurd h (by simp)
    | some n =>
      obtain ⟨hnmem, hnid⟩ := findNode_some hfind
      rw [hfind] at h
      dsimp only at h
      by_cases hp : n.parent_id = -1
      · rw [if_pos hp] at h
        have h' : some [j] = some l := h
        injection h' with h'
        subst h'
        have hjrid : j = rid := by simpa using hlast
        subst hjrid
        rw [show f + 1 + lq.length = f + lq.length + 1 from by omega]
        rw [chainAux_succ, findNode_setParent, hfind]
        simp only [Option.map_some']
        rw [show (if n.node_id = j then { n with parent_id := q } else n) =
          { n with parent_id := q } from if_pos hnid]
        dsimp only
        rw [if_neg hq0]
        have hqmin := chainAux_min_fuel hq
        rw [chainAux_mono hqmin (by omega : lq.length ≤ f + lq.length)]
        rfl
      · rw [if_neg hp] at h
        cases hc : chainAux g f n.parent_id with
        | none =>
          rw [hc] at h
          exact absurd h (by simp)
        | some t =>
          rw [hc] at h
          have h' : some (j :: t) = some l := h
          injection h' with h'
          subst h'
          have hjrid : j ≠ rid := by
            intro hj
            subst hj
            rw [hfind] at hr
            injection hr with hr
            subst hr
            exact hp hrp
          obtain ⟨t', rfl⟩ := chainAux_head hc
          have htlast : (n.parent_id :: t').getLastD 0 = rid := by
            rw [← hlast]
            rw [show (j :: n.parent_id :: t').getLastD 0 =
              (n.parent_id :: t').getLastD j from List.getLastD_cons 0 j _]
            exact getLastD_of_ne_nil (by simp) 0 j
          have hih := ih hc htlast
          rw [show f + 1 + lq.length = f + lq.length + 1 from by omega]
          rw [chainAux_succ, findNode_setParent, hfind]
          simp only [Option.map_some']
          rw [show (if n.node_id = rid then { n with parent_id := q } else n) = n
            from if_neg (by rw [hnid]; exact hjrid)]
          rw [if_neg hp, hih]
          rfl

/-- Membership in the root list. -/
theorem roots_mem {g : Skeleton} {n : SkelNode} :
    n ∈ roots g ↔ n ∈ g ∧ n.parent_id = -1 := by
  simp [roots]

/-- Root ids inherit duplicate-freeness. -/
theorem roots_ids_nodup {g : Skeleton} (hnd : (g.map (·.node_id)).Nodup) :
    ((roots g).map (·.node_id)).Nodup :=
  hnd.sublist ((List.filter_sublist g).map _)

/-- The chain of a root node is the singleton of its id. -/
theorem chain_of_root {g : Skeleton} (hnd : (g.map (·.node_id)).Nodup)
    {r : SkelNode} (hr : r ∈ g) (hp : r.parent_id = -1) :
    chain g r.node_id = some [r.node_id] := by
  have h1 : chainAux g 1 r.node_id = some [r.node_id] := by
    rw [show (1 : Nat) = 0 + 1 from rfl, chainAux_succ, findNode_self hnd hr]
    dsimp only
    rw [if_pos hp]
  exact chain_of_chainAux h1

/-- The root id computed from a chain. -/
theorem rootOf_eq_of_chain {g : Skeleton} {i : Int} {l : List Int}
    (h : chain g i = some l) : rootOf g i = some (l.getLastD 0) := by
  rw [rootOf, h]
  rfl

/-- If a chain visits the id of a root node, that id is the chain's last
element. -/
theorem chain_root_mem_last {g : Skeleton} {f : Nat} {i j : Int} {l : List Int}
    {rj : SkelNode} (h : chainAux g f i = some l) (hj : j ∈ l)
    (hfind : findNode g j = some rj) (hrj : rj.parent_id = -1) :
    l.getLastD 0 = j := by
  have hchainj : chainAux g 1 j = some [j] := by
    rw [show (1 : Nat) = 0 + 1 from rfl, chainAux_succ, hfind]
    dsimp only
    rw [if_pos hrj]
  obtain ⟨t, rfl⟩ := chainAux_head h
  rcases List.mem_cons.mp hj with rfl | hjt
  · have he := chainAux_unique h hchainj
    rw [he]
    rfl
  · obtain ⟨f', m, hm, -, hlast⟩ := chainAux_suffix h hjt
    have he : m = [j] := chainAux_unique hm hchainj
    subst he
    exact hlast.symm

/-- Node ids are unchanged by parent redirection. -/
theorem setParent_ids (g : Skeleton) (i q : Int) :
    (setParent g i q).map (·.node_id) = g.map (·.node_id) := by
  unfold setParent
  rw [List.map_map]
  refine List.map_congr_left ?_
  intro n _
  by_cases h : n.node_id = i <;> simp [h]

/-- Node count is unchanged by parent redirection. -/
theorem setParent_length (g : Skeleton) (i q : Int) :
    (setParent g i q).length = g.length := by
  simp [setParent]

/-- Redirecting an absent id changes nothing. -/
theorem setParent_not_mem {g : Skeleton} {i : Int} (q : Int)
    (h : ∀ n ∈ g, n.node_id ≠ i) : setParent g i q = g := by
  unfold setParent
  have : ∀ n ∈ g, (if n.node_id = i then { n with parent_id := q } else n) = n := by
    intro n hn
    rw [if_neg (h n hn)]
  rw [List.map_congr_left this]
  exact List.map_id _

/-- A well-formed non-empty skeleton has a root. -/
theorem roots_ne_nil {g : Skeleton} (hwf : WellFormed g) (hne : g ≠ []) :
    roots g ≠ [] := by
  obtain ⟨n, hn⟩ := List.exists_mem_of_ne_nil g hne
  have hch := hwf.2.2 n hn
  rw [Option.isSome_iff_exists] at hch
  obtain ⟨l, hl⟩ := hch
  obtain ⟨r, hr, -, hrp⟩ := chainAux_last_root hl
  exact List.ne_nil_of_mem (roots_mem.mpr ⟨hr, hrp⟩)

/-- Redirecting a root of one component to a node of a different component
preserves well-formedness. -/
theorem setParent_wf {g : Skeleton} {r1 m : SkelNode}
    (hwf : WellFormed g) (hr1 : r1 ∈ g) (hr1p : r1.parent_id = -1)
    (hm : m ∈ g) (hmroot : rootOf g m.node_id ≠ some r1.node_id) :
    WellFormed (setParent g r1.node_id m.node_id) := by
  obtain ⟨hnd, hnonneg, hch⟩ := hwf
  have hq0 : m.node_id ≠ -1 := by
    have := hnonneg m hm
    omega
  have hrfind : findNode g r1.node_id = some r1 := findNode_self hnd hr1
  -- the target's chain avoids r1
  have hmch := hch m hm
  rw [Option.isSome_iff_exists] at hmch
  obtain ⟨lm, hlm⟩ := hmch
  have hr1lm : r1.node_id ∉ lm := by
    intro hin
    have := chain_root_mem_last hlm hin hrfind hr1p
    exact hmroot (by rw [rootOf_eq_of_chain hlm, this])
  have hφ : ∀ n : SkelNode,
      ((if n.node_id = r1.node_id then { n with parent_id := m.node_id } else n) :
        SkelNode).node_id = n.node_id := by
    intro n
    by_cases h : n.node_id = r1.node_id <;> simp [h]
  have hlmset : chainAux (setParent g r1.node_id m.node_id) g.length m.node_id
      = some lm := by
    refine chainAux_map_preserve hφ hlm ?_
    intro n _ hnl
    have : n.node_id ≠ r1.node_id := fun he => hr1lm (he ▸ hnl)
    rw [if_neg this]
  refine ⟨?_, ?_, ?_⟩
  · rw [setParent_ids]
    exact hnd
  · intro n' hn'
    obtain ⟨n, hn, rfl⟩ := List.mem_map.mp hn'
    rw [hφ n]
    exact hnonneg n hn
  · intro n' hn'
    obtain ⟨n, hn, rfl⟩ := List.mem_map.mp hn'
    rw [hφ n]
    have hnch := hch n hn
    rw [Option.isSome_iff_exists] at hnch
    obtain ⟨l, hl⟩ := hnch
    by_cases hcase : r1.node_id ∈ l
    · have hlast := chain_root_mem_last hl hcase hrfind hr1p
      have hgr := chainAux_graft hrfind hr1p hq0 hlmset hl hlast
      rw [chain_of_chainAux hgr]
      rfl
    · have hpres : chainAux (setParent g r1.node_id m.node_id) g.length n.node_id
          = some l := by
        refine chainAux_map_preserve hφ hl ?_
        intro n2 _ hn2l
        have : n2.node_id ≠ r1.node_id := fun he => hcase (he ▸ hn2l)
        rw [if_neg this]
      rw [chain_of_chainAux hpres]
      rfl

/-- Redirecting a root to a non-root value removes exactly one root. -/
theorem roots_setParent_count {g : Skeleton} {r1 : SkelNode} {q : Int}
    (hnd : (g.map (·.node_id)).Nodup) (hr1 : r1 ∈ g) (hp : r1.parent_id = -1)
    (hq : q ≠ -1) :
    (roots (setParent g r1.node_id q)).length + 1 = (roots g).length := by
  induction g with
  | nil => cases hr1
  | cons a rest ih =>
    rw [List.map_cons, List.nodup_cons] at hnd
    obtain ⟨ha, hrest⟩ := hnd
    rcases List.mem_cons.mp hr1 with rfl | hmem
    · have hstep : setParent (r1 :: rest) r1.node_id q =
          ({ r1 with parent_id := q } : SkelNode) :: setParent rest r1.node_id q := by
        unfold setParent
        rw [List.map_cons, if_pos rfl]
      have hrest_eq : setParent rest r1.node_id q = rest := by
        refine setParent_not_mem q ?_
        intro n hn he
        exact ha (he ▸ List.mem_map.mpr ⟨n, hn, rfl⟩)
      rw [hstep, hrest_eq]
      have hroots1 : roots (({ r1 with parent_id := q } : SkelNode) :: rest) =
          roots rest := by
        unfold roots
        rw [List.filter_cons_of_neg]
        simp [hq]
      have hroots2 : roots (r1 :: rest) = r1 :: roots rest := by
        unfold roots
        rw [List.filter_cons_of_pos]
        simp [hp]
      rw [hroots1, hroots2]
      simp
    · have hane : a.node_id ≠ r1.node_id := by
        intro he
        exact ha (he ▸ List.mem_map.mpr ⟨r1, hmem, rfl⟩)
      have hstep : setParent (a :: rest) r1.node_id q =
          a :: setParent rest r1.node_id q := by
        unfold setParent
        rw [List.map_cons, if_neg hane]
      rw [hstep]
      by_cases haroot : a.parent_id = -1
      · have h1 : roots (a :: setParent rest r1.node_id q) =
            a :: roots (setParent rest r1.node_id q) := by
          unfold roots
          rw [List.filter_cons_of_pos]
          simp [haroot]
        have h2 : roots (a :: rest) = a :: roots rest := by
          unfold roots
          rw [List.filter_cons_of_pos]
          simp [haroot]
        rw [h1, h2]
        have hih := ih hrest hmem
        simp only [List.length_cons]
        omega
      · have h1 : roots (a :: setParent rest r1.node_id q) =
            roots (setParent rest r1.node_id q) := by
          unfold roots
          rw [List.filter_cons_of_neg]
          simp [haroot]
        have h2 : roots (a :: rest) = roots rest := by
          unfold roots
          rw [List.filter_cons_of_neg]
          simp [haroot]
        rw [h1, h2]
        exact ih hrest hmem

/-- The selected candidate is one of the candidates. -/
theorem pickMinAux_mem : ∀ (b : SkelNode × Int) (l : List (SkelNode × Int)),
    pickMinAux b l ∈ b :: l := by
  intro b l
  induction l generalizing b with
  | nil => exact List.mem_singleton.mpr rfl
  | cons q rest ih =>
    show pickMinAux (if q.2 < b.2 then q else b) rest ∈ b :: q :: rest
    rcases List.mem_cons.mp (ih (if q.2 < b.2 then q else b)) with he | hmem
    · rw [he]
      by_cases hlt : q.2 < b.2
      · rw [if_pos hlt]
        exact List.mem_cons_of_mem b (List.mem_cons_self q rest)
      · rw [if_neg hlt]
        exact List.mem_cons_self b (q :: rest)
    · exact List.mem_cons_of_mem b (List.mem_cons_of_mem q hmem)

/-- With at least two roots, the heal step redirects the second root to a
node of the first root's component. -/
theorem healStep_attaches {g : Skeleton} {r0 r1 : SkelNode} {rs : List SkelNode}
    (hwf : WellFormed g) (hr : roots g = r0 :: r1 :: rs) :
    ∃ m ∈ g, rootOf g m.node_id = some r0.node_id ∧
      healStep g = setParent g r1.node_id m.node_id := by
  obtain ⟨hnd, -, -⟩ := hwf
  have hr0 : r0 ∈ roots g := by rw [hr]; exact List.mem_cons_self _ _
  have hr1 : r1 ∈ roots g := by
    rw [hr]; exact List.mem_cons_of_mem _ (List.mem_cons_self _ _)
  obtain ⟨hr0g, hr0p⟩ := roots_mem.mp hr0
  obtain ⟨hr1g, hr1p⟩ := roots_mem.mp hr1
  have hroot0 : rootOf g r0.node_id = some r0.node_id := by
    rw [rootOf_eq_of_chain (chain_of_root hnd hr0g hr0p)]
    rfl
  have hroot1 : rootOf g r1.node_id = some r1.node_id := by
    rw [rootOf_eq_of_chain (chain_of_root hnd hr1g hr1p)]
    rfl
  have hr0main : r0 ∈ g.filter (fun n => decide (rootOf g n.node_id = some r0.node_id)) :=
    List.mem_filter.mpr ⟨hr0g, by simp [hroot0]⟩
  have hr1frag : r1 ∈ g.filter (fun n => decide (rootOf g n.node_id = some r1.node_id)) :=
    List.mem_filter.mpr ⟨hr1g, by simp [hroot1]⟩
  have hpair : (r0, dist2 r0 r1) ∈
      (g.filter (fun n => decide (rootOf g n.node_id = some r0.node_id))).flatMap
        (fun m => (g.filter (fun n => decide (rootOf g n.node_id = some r1.node_id))).map
          (fun c => (m, dist2 m c))) :=
    List.mem_flatMap.mpr ⟨r0, hr0main, List.mem_map.mpr ⟨r1, hr1frag, rfl⟩⟩
  cases hpairs : (g.filter (fun n => decide (rootOf g n.node_id = some r0.node_id))).flatMap
      (fun m => (g.filter (fun n => decide (rootOf g n.node_id = some r1.node_id))).map
        (fun c => (m, dist2 m c))) with
  | nil =>
    rw [hpairs] at hpair
    cases hpair
  | cons p ps =>
    have hmin := pickMinAux_mem p ps
    rw [← hpairs] at hmin
    obtain ⟨m, hmfil, hmm⟩ := List.mem_flatMap.mp hmin
    obtain ⟨c, -, hcm⟩ := List.mem_map.mp hmm
    obtain ⟨hmg, hmroot⟩ := List.mem_filter.mp hmfil
    refine ⟨m, hmg, by simpa using hmroot, ?_⟩
    unfold healStep
    rw [hr]
    dsimp only
    rw [hpairs]
    dsimp only
    rw [← hcm]

/-- The healing iteration reaches a single-root, well-formed graph. -/
theorem heal_aux_good : ∀ (fuel : Nat) (g : Skeleton), WellFormed g → g ≠ [] →
    (roots g).length ≤ fuel + 1 →
    WellFormed (heal_aux fuel g) ∧ heal_aux fuel g ≠ [] ∧
      (roots (heal_aux fuel g)).length = 1 := by
  intro fuel
  induction fuel with
  | zero =>
    intro g hwf hne hle
    have h0 : heal_aux 0 g = g := rfl
    rw [h0]
    have hpos : 0 < (roots g).length := List.length_pos.mpr (roots_ne_nil hwf hne)
    exact ⟨hwf, hne, by omega⟩
  | succ fuel ih =>
    intro g hwf hne hle
    by_cases hc : (roots g).length ≤ 1
    · have hg : heal_aux (fuel + 1) g = g := by
        show (if (roots g).length ≤ 1 then g else heal_aux fuel (healStep g)) = g
        rw [if_pos hc]
      rw [hg]
      have hpos : roots g ≠ [] := roots_ne_nil hwf hne
      have : 0 < (roots g).length := List.length_pos.mpr hpos
      exact ⟨hwf, hne, by omega⟩
    · have hg : heal_aux (fuel + 1) g = heal_aux fuel (healStep g) := by
        show (if (roots g).length ≤ 1 then g else heal_aux fuel (healStep g)) = _
        rw [if_neg hc]
      rw [hg]
      have hlen2 : 2 ≤ (roots g).length := by omega
      obtain ⟨r0, r1, rs, hr⟩ : ∃ r0 r1 rs, roots g = r0 :: r1 :: rs := by
        cases hroots : roots g with
        | nil => rw [hroots] at hlen2; simp at hlen2
        | cons r0 rest =>
          cases rest with
          | nil => rw [hroots] at hlen2; simp at hlen2
          | cons r1 rs => exact ⟨r0, r1, rs, rfl⟩
      obtain ⟨m, hmg, hmroot, hstep⟩ := healStep_attaches hwf hr
      have hr0 : r0 ∈ roots g := by rw [hr]; exact List.mem_cons_self _ _
      have hr1 : r1 ∈ roots g := by
        rw [hr]; exact List.mem_cons_of_mem _ (List.mem_cons_self _ _)
      obtain ⟨hr0g, hr0p⟩ := roots_mem.mp hr0
      obtain ⟨hr1g, hr1p⟩ := roots_mem.mp hr1
      have hne01 : r0.node_id ≠ r1.node_id := by
        have hnodup := roots_ids_nodup hwf.1
        rw [hr] at hnodup
        simp only [List.map_cons, List.nodup_cons, List.mem_cons, List.mem_map] at hnodup
        exact fun he => hnodup.1 (Or.inl he)
      have hmrootne : rootOf g m.node_id ≠ some r1.node_id := by
        rw [hmroot]
        intro he
        injection he with he
        exact hne01 he
      have hwf' : WellFormed (setParent g r1.node_id m.node_id) :=
        setParent_wf hwf hr1g hr1p hmg hmrootne
      have hq0 : m.node_id ≠ -1 := by
        have := hwf.2.1 m hmg
        omega
      have hcount := roots_setParent_count hwf.1 hr1g hr1p hq0
      have hne' : setParent g r1.node_id m.node_id ≠ [] := by
        intro h0
        have := setParent_length g r1.node_id m.node_id
        rw [h0] at this
        simp at this
        exact hne (List.eq_nil_of_length_eq_zero this.symm)
      rw [hstep]
      exact ih _ hwf' hne' (by omega)

/-- C1: healing any well-formed non-empty skeleton forest (k >= 1 fragments)
yields a graph with exactly one node whose `parent_id` is `-1` and a single
connected component (all nodes pairwise connected by undirected
parent/child edges). -/
theorem heal_single_component (g : Skeleton) (hwf : WellFormed g) (hne : g ≠ []) :
    (roots (heal_skeleton g)).length = 1 ∧
      ∀ a ∈ heal_skeleton g, ∀ b ∈ heal_skeleton g,
        Connected (heal_skeleton g) a.node_id b.node_id := by
  have hlen : (roots g).length ≤ g.length + 1 :=
    le_trans (List.length_filter_le _ _) (by omega)
  obtain ⟨hwf', hne', hone⟩ := heal_aux_good g.length g hwf hne hlen
  have hgh : heal_skeleton g = heal_aux g.length g := rfl
  rw [← hgh] at hwf' hne' hone
  refine ⟨hone, ?_⟩
  obtain ⟨R, hR⟩ : ∃ R, roots (heal_skeleton g) = [R] := by
    cases hroots : roots (heal_skeleton g) with
    | nil => rw [hroots] at hone; simp at hone
    | cons R rest =>
      cases rest with
      | nil => exact ⟨R, rfl⟩
      | cons R2 rest2 => rw [hroots] at hone; simp at hone
  have hconnR : ∀ a ∈ heal_skeleton g,
      Connected (heal_skeleton g) a.node_id R.node_id := by
    intro a ha
    have hch := hwf'.2.2 a ha
    rw [Option.isSome_iff_exists] at hch
    obtain ⟨l, hl⟩ := hch
    have hcon := chainAux_connected hl
    obtain ⟨r, hrg, hrid, hrp⟩ := chainAux_last_root hl
    have hrR : r ∈ roots (heal_skeleton g) := roots_mem.mpr ⟨hrg, hrp⟩
    rw [hR, List.mem_singleton] at hrR
    subst hrR
    rw [← hrid] at hcon
    exact hcon
  have hsymm : Symmetric (adjacent (heal_skeleton g)) := by
    rintro x y ⟨n, hn, hp, hor⟩
    exact ⟨n, hn, hp, hor.symm⟩
  intro a ha b hb
  exact (hconnR a ha).trans ((Relation.ReflTransGen.symmetric hsymm) (hconnR b hb))

/-- Witness for C1: healing a two-fragment forest. -/
theorem heal_single_component_witness :
    (roots (heal_skeleton exForest)).length = 1 ∧
      ∀ a ∈ heal_skeleton exForest, ∀ b ∈ heal_skeleton exForest,
        Connected (heal_skeleton exForest) a.node_id b.node_id :=
  heal_single_component exForest (by decide) (by decide)

/-- `prevInChain` finds nothing for ids off the path. -/
theorem prevInChain_none : ∀ {l : List Int} {j : Int}, j ∉ l → prevInChain l j = none := by
  intro l
  induction l with
  | nil => intro j _; rfl
  | cons a rest ih =>
    intro j hj
    cases rest with
    | nil => rfl
    | cons b rest' =>
      show (if b = j then some a else prevInChain (b :: rest') j) = none
      rw [if_neg (fun he => hj (by rw [← he]; simp))]
      exact ih (fun hmem => hj (List.mem_cons_of_mem a hmem))

/-- On a duplicate-free path, `prevInChain` finds exactly the predecessor
pairs. -/
theorem prevInChain_iff : ∀ {l : List Int}, l.Nodup → ∀ {v p : Int},
    (prevInChain l v = some p ↔ (p, v) ∈ l.zip l.tail) := by
  intro l
  induction l with
  | nil =>
    intro _ v p
    simp [prevInChain]
  | cons a rest ih =>
    intro hnd v p
    rw [List.nodup_cons] at hnd
    cases rest with
    | nil => simp [prevInChain]
    | cons b rest' =>
      show (if b = v then some a else prevInChain (b :: rest') v) = some p ↔
        (p, v) ∈ (a, b) :: (b :: rest').zip rest'
      by_cases hb : b = v
      · subst hb
        rw [if_pos rfl]
        constructor
        · intro h
          injection h with h
          subst h
          exact List.mem_cons_self _ _
        · intro h
          rcases List.mem_cons.mp h with he | hmem
          · injection he with he1 he2
            rw [he1]
          · exfalso
            have hb2 := (List.of_mem_zip hmem).2
            rw [List.nodup_cons] at hnd
            exact hnd.2.1 hb2
      · rw [if_neg hb]
        have htail : (b :: rest').zip ((b :: rest').tail) = (b :: rest').zip rest' := rfl
        rw [← htail]
        rw [ih hnd.2]
        constructor
        · exact fun h => List.mem_cons_of_mem _ h
        · intro h
          rcases List.mem_cons.mp h with he | hmem
          · exfalso
            injection he with he1 he2
            exact hb he2.symm
          · exact hmem

/-- Consecutive chain elements are parent edges of the graph. -/
theorem chainAux_consec {g : Skeleton} : ∀ {f : Nat} {i : Int} {l : List Int},
    chainAux g f i = some l →
    ∀ p v, (p, v) ∈ l.zip l.tail → ∃ n ∈ g, n.node_id = p ∧ n.parent_id = v := by
  intro f
  induction f with
  | zero =>
    intro i l h
    exact absurd h (by simp [chainAux])
  | succ f ih =>
    intro i l h p v hpv
    rw [chainAux_succ] at h
    cases hfind : findNode g i with
    | none =>
      rw [hfind] at h
      exact absurd h (by simp)
    | some n =>
      obtain ⟨hnmem, hnid⟩ := findNode_some hfind
      rw [hfind] at h
      dsimp only at h
      by_cases hp : n.parent_id = -1
      · rw [if_pos hp] at h
        have h' : some [i] = some l := h
        injection h' with h'
        subst h'
        simp at hpv
      · rw [if_neg hp] at h
        cases hc : chainAux g f n.parent_id with
        | none =>
          rw [hc] at h
          exact absurd h (by simp)
        | some t =>
          rw [hc] at h
          have h' : some (i :: t) = some l := h
          injection h' with h'
          subst h'
          obtain ⟨t', rfl⟩ := chainAux_head hc
          have hzip : (i :: n.parent_id :: t').zip ((i :: n.parent_id :: t').tail) =
              (i, n.parent_id) :: ((n.parent_id :: t').zip ((n.parent_id :: t').tail)) := rfl
          rw [hzip] at hpv
          rcases List.mem_cons.mp hpv with he | hmem
          · injection he with he1 he2
            exact ⟨n, hnmem, he1 ▸ hnid, he2 ▸ rfl⟩
          · exact ih hc p v hmem

/-- The last element of a non-empty list is a member. -/
theorem getLastD_mem {l : List Int} (h : l ≠ []) : l.getLastD 0 ∈ l := by
  rw [List.getLastD_eq_getLast?]
  cases hl : l.getLast? with
  | none => exact absurd (List.getLast?_eq_none_iff.mp hl) h
  | some x =>
    rw [List.getLast?_eq_getLast l h] at hl
    injection hl with hl
    exact hl ▸ List.getLast_mem h

/-- The last element of a non-empty list as an indexed element. -/
theorem getLastD_eq_getElem {l : List Int}
    (hlt : l.length - 1 < l.length) : l.getLastD 0 = l[l.length - 1] := by
  rw [List.getLastD_eq_getLast?, List.getLast?_eq_getElem?]
  simp [List.getElem?_eq_getElem hlt]

/-- With duplicate-free ids, members with equal ids are equal. -/
theorem nodes_id_inj {g : Skeleton} (hnd : (g.map (·.node_id)).Nodup)
    {n m : SkelNode} (hn : n ∈ g) (hm : m ∈ g) (he : n.node_id = m.node_id) :
    n = m := by
  have h1 := findNode_self hnd hn
  have h2 := findNode_self hnd hm
  rw [he] at h1
  rw [h1] at h2
  injection h2

/-- The reroot update preserves node ids. -/
theorem rerootFn_id (nr : Int) (l : List Int) (n : SkelNode) :
    (rerootFn nr l n).node_id = n.node_id := by
  unfold rerootFn
  by_cases h1 : n.node_id = nr
  · rw [if_pos h1]
  · rw [if_neg h1]
    cases prevInChain l n.node_id <;> rfl

/-- The reroot update fixes nodes whose id is off the path. -/
theorem rerootFn_not_mem {nr : Int} {l : List Int} {n : SkelNode}
    (hnr : nr ∈ l) (h : n.node_id ∉ l) : rerootFn nr l n = n := by
  unfold rerootFn
  rw [if_neg (fun he => h (by rw [he]; exact hnr)), prevInChain_none h]

/-- Descent along the reversed path: from the `j`-th path node, the rerooted
graph chains down the reversed prefix to the new root. -/
theorem reroot_descent {g : Skeleton} {nr : Int} {l : List Int}
    (hnd : (g.map (·.node_id)).Nodup) (hnonneg : ∀ n ∈ g, 0 ≤ n.node_id)
    (hl : chainAux g g.length nr = some l) :
    ∀ (j : Nat) (hj : j < l.length),
      chainAux (g.map (rerootFn nr l)) (j + 1) (l[j]) =
        some ((l.take (j + 1)).reverse) := by
  have hnodup := chainAux_nodup hl
  obtain ⟨t0, hl0⟩ := chainAux_head hl
  intro j
  induction j with
  | zero =>
    intro hj
    have h0 : l[0] = nr := by rw [List.getElem_of_eq hl0]; rfl
    have hmem : nr ∈ l := by rw [hl0]; exact List.mem_cons_self _ _
    obtain ⟨n0, hn0, hn0id⟩ := chainAux_mem_ids hl nr hmem
    have hfind : findNode g nr = some n0 := by
      rw [← hn0id]; exact findNode_self hnd hn0
    rw [h0, chainAux_succ, findNode_map (rerootFn_id nr l), hfind]
    simp only [Option.map_some']
    rw [show rerootFn nr l n0 = { n0 with parent_id := -1 } from by
      unfold rerootFn; rw [if_pos hn0id]]
    dsimp only
    rw [if_pos rfl, hl0]
    rfl
  | succ j ihj =>
    intro hj
    have hjlt : j < l.length := by omega
    have hz : j < (l.zip l.tail).length := by
      rw [List.length_zip]
      simp
      omega
    have ht : j < l.tail.length := by simp; omega
    have hzel : (l.zip l.tail)[j] = (l[j], l.tail[j]) := List.getElem_zip
    have ht2 : l.tail[j] = l[j + 1] := by simp [List.getElem_tail]
    have hpair : (l[j], l[j + 1]) ∈ l.zip l.tail := by
      rw [← ht2, ← hzel]
      exact List.getElem_mem hz
    have hprev : prevInChain l (l[j + 1]) = some (l[j]) :=
      (prevInChain_iff hnodup).mpr hpair
    have hvne : l[j + 1] ≠ nr := by
      intro he
      have hlen0 : 0 < l.length := by omega
      have h0 : l[0] = nr := by rw [List.getElem_of_eq hl0]; rfl
      have := hnodup.getElem_inj_iff.mp (he.trans h0.symm)
      omega
    obtain ⟨nv, hnv, hnvid⟩ := chainAux_mem_ids hl (l[j + 1]) (List.getElem_mem hj)
    have hfind : findNode g (l[j + 1]) = some nv := by
      rw [← hnvid]; exact findNode_self hnd hnv
    have hjnonneg : 0 ≤ l[j] := by
      obtain ⟨m, hm, hmid⟩ := chainAux_mem_ids hl (l[j]) (List.getElem_mem hjlt)
      rw [← hmid]
      exact hnonneg m hm
    rw [chainAux_succ, findNode_map (rerootFn_id nr l), hfind]
    simp only [Option.map_some']
    rw [show rerootFn nr l nv = { nv with parent_id := l[j] } from by
      unfold rerootFn
      rw [if_neg (by rw [hnvid]; exact hvne), hnvid, hprev]]
    dsimp only
    rw [if_neg (by omega : ¬l[j] = -1), ihj hjlt]
    simp only [Option.map_some', Option.some.injEq]
    have htake : l.take (j + 1 + 1) = l.take (j + 1) ++ [l[j + 1]] := by
      rw [List.take_succ]
      simp [List.getElem?_eq_getElem hj]
    rw [htake, List.reverse_append]
    rfl

/-- Climb: every node of a single-rooted graph reaches the new root `nr`
after rerooting: its old chain joins the reroot path and descends the
reversed prefix. -/
theorem reroot_climb {g : Skeleton} {nr : Int} {l : List Int}
    (hnd : (g.map (·.node_id)).Nodup) (hnonneg : ∀ n ∈ g, 0 ≤ n.node_id)
    (hl : chainAux g g.length nr = some l)
    (hlastR : ∀ {f2 : Nat} {x : Int} {c : List Int}, chainAux g f2 x = some c →
      c.getLastD 0 = l.getLastD 0) :
    ∀ {f : Nat} {x : Int} {c : List Int}, chainAux g f x = some c →
    ∃ f' c', chainAux (g.map (rerootFn nr l)) f' x = some c' ∧
      c'.getLastD 0 = nr := by
  have hnodup := chainAux_nodup hl
  obtain ⟨t0, hl0⟩ := chainAux_head hl
  intro f
  induction f with
  | zero =>
    intro x c h
    exact absurd h (by simp [chainAux])
  | succ f ih =>
    intro x c h
    by_cases hxl : x ∈ l
    · obtain ⟨j, hj, hxj⟩ := List.mem_iff_getElem.mp hxl
      have hdesc := reroot_descent hnd hnonneg hl j hj
      rw [hxj] at hdesc
      refine ⟨j + 1, (l.take (j + 1)).reverse, hdesc, ?_⟩
      rw [List.getLastD_eq_getLast?, List.getLast?_reverse]
      rw [show l.take (j + 1) = (nr :: t0).take (j + 1) from by rw [hl0]]
      rfl
    · rw [chainAux_succ] at h
      cases hfind : findNode g x with
      | none =>
        rw [hfind] at h
        exact absurd h (by simp)
      | some n =>
        obtain ⟨hnmem, hnid⟩ := findNode_some hfind
        rw [hfind] at h
        dsimp only at h
        by_cases hp : n.parent_id = -1
        · rw [if_pos hp] at h
          have h' : some [x] = some c := h
          injection h' with h'
          subst h'
          exfalso
          have hx := hlastR (show chainAux g (f + 1) x = some [x] from by
            rw [chainAux_succ, hfind]
            dsimp only
            rw [if_pos hp])
          have hxval : x = l.getLastD 0 := by simpa using hx
          have hmem : l.getLastD 0 ∈ l := getLastD_mem (by rw [hl0]; simp)
          exact hxl (hxval ▸ hmem)
        · rw [if_neg hp] at h
          cases hc : chainAux g f n.parent_id with
          | none =>
            rw [hc] at h
            exact absurd h (by simp)
          | some t =>
            rw [hc] at h
            have h' : some (x :: t) = some c := h
            injection h' with h'
            subst h'
            obtain ⟨f', c', hc', hlast'⟩ := ih hc
            have hfn : rerootFn nr l n = n :=
              rerootFn_not_mem (by rw [hl0]; exact List.mem_cons_self _ _)
                (by rw [hnid]; exact hxl)
            refine ⟨f' + 1, x :: c', ?_, ?_⟩
            · rw [chainAux_succ, findNode_map (rerootFn_id nr l), hfind]
              simp only [Option.map_some']
              rw [hfn]
              rw [if_neg hp, hc']
              rfl
            · obtain ⟨c't, rfl⟩ := chainAux_head hc'
              rw [show (x :: n.parent_id :: c't).getLastD 0 =
                (n.parent_id :: c't).getLastD x from List.getLastD_cons 0 x _]
              rw [getLastD_of_ne_nil (by simp) x 0]
              exact hlast'

/-- Rerooting preserves the undirected edge set. -/
theorem reroot_edges {g : Skeleton} {nr : Int} {l : List Int}
    (hwf : WellFormed g) (hl : chainAux g g.length nr = some l) :
    ∀ a b, adjacent (g.map (rerootFn nr l)) a b ↔ adjacent g a b := by
  obtain ⟨hnd, hnonneg, -⟩ := hwf
  have hnodup := chainAux_nodup hl
  obtain ⟨t0, hl0⟩ := chainAux_head hl
  have hnrl : nr ∈ l := by rw [hl0]; exact List.mem_cons_self _ _
  intro a b
  constructor
  · rintro ⟨n', hn', hp', hor⟩
    obtain ⟨n, hn, rfl⟩ := List.mem_map.mp hn'
    by_cases h1 : n.node_id = nr
    · exfalso
      exact hp' (by unfold rerootFn; rw [if_pos h1])
    · cases hpc : prevInChain l n.node_id with
      | none =>
        have hfix : rerootFn nr l n = n := by unfold rerootFn; rw [if_neg h1, hpc]
        rw [hfix] at hp' hor
        exact ⟨n, hn, hp', hor⟩
      | some p =>
        have hfn : rerootFn nr l n = { n with parent_id := p } := by
          unfold rerootFn; rw [if_neg h1, hpc]
        rw [hfn] at hp' hor
        have hzip := (prevInChain_iff hnodup).mp hpc
        obtain ⟨m, hm, hmid, hmpar⟩ := chainAux_consec hl p n.node_id hzip
        have hmne : m.parent_id ≠ -1 := by
          rw [hmpar]
          have := hnonneg n hn
          omega
        rcases hor with ⟨ha, hb⟩ | ⟨ha, hb⟩
        · have ha' : n.node_id = a := ha
          have hb' : p = b := hb
          exact ⟨m, hm, hmne, Or.inr ⟨hmid.trans hb', hmpar.trans ha'⟩⟩
        · have ha' : n.node_id = b := ha
          have hb' : p = a := hb
          exact ⟨m, hm, hmne, Or.inl ⟨hmid.trans hb', hmpar.trans ha'⟩⟩
  · rintro ⟨n, hn, hp, hor⟩
    by_cases hmem : n.node_id ∈ l
    · obtain ⟨j, hj, hxj⟩ := List.mem_iff_getElem.mp hmem
      rcases Nat.lt_or_ge (j + 1) l.length with hlt | hge
      · have hz : j < (l.zip l.tail).length := by
          rw [List.length_zip]
          simp
          omega
        have ht : j < l.tail.length := by simp; omega
        have hzel : (l.zip l.tail)[j] = (l[j], l.tail[j]) := List.getElem_zip
        have ht2 : l.tail[j] = l[j + 1] := by simp [List.getElem_tail]
        have hpair : (l[j], l[j + 1]) ∈ l.zip l.tail := by
          rw [← ht2, ← hzel]
          exact List.getElem_mem hz
        obtain ⟨m, hm, hmid, hmpar⟩ := chainAux_consec hl (l[j]) (l[j + 1]) hpair
        have hmn : m = n := nodes_id_inj hnd hm hn (hmid.trans hxj)
        subst hmn
        have hnpar : m.parent_id = l[j + 1] := hmpar
        obtain ⟨w, hw, hwid⟩ := chainAux_mem_ids hl (l[j + 1]) (List.getElem_mem hlt)
        have hwne : w.node_id ≠ nr := by
          rw [hwid]
          intro he
          have hlen0 : 0 < l.length := by omega
          have h0 : l[0] = nr := by rw [List.getElem_of_eq hl0]; rfl
          have := hnodup.getElem_inj_iff.mp (he.trans h0.symm)
          omega
        have hprev : prevInChain l w.node_id = some (l[j]) := by
          rw [hwid]
          exact (prevInChain_iff hnodup).mpr hpair
        have hfn : rerootFn nr l w = { w with parent_id := l[j] } := by
          unfold rerootFn
          rw [if_neg hwne, hprev]
        have hwmem : rerootFn nr l w ∈ g.map (rerootFn nr l) :=
          List.mem_map.mpr ⟨w, hw, rfl⟩
        have hjne : (l[j] : Int) ≠ -1 := by
          have := hnonneg m hm
          rw [hxj]
          omega
        rcases hor with ⟨ha, hb⟩ | ⟨ha, hb⟩
        · refine ⟨rerootFn nr l w, hwmem, ?_, Or.inr ?_⟩
          · rw [hfn]
            exact hjne
          · rw [hfn]
            refine ⟨?_, ?_⟩
            · show w.node_id = b
              rw [hwid, ← hnpar, hb]
            · show (l[j] : Int) = a
              rw [hxj, ← ha]
        · refine ⟨rerootFn nr l w, hwmem, ?_, Or.inl ?_⟩
          · rw [hfn]
            exact hjne
          · rw [hfn]
            refine ⟨?_, ?_⟩
            · show w.node_id = a
              rw [hwid, ← hnpar, hb]
            · show (l[j] : Int) = b
              rw [hxj, ← ha]
      · exfalso
        have hlen0 : 0 < l.length := by omega
        have hlt' : l.length - 1 < l.length := by omega
        have hgl := getLastD_eq_getElem hlt'
        have hidx : l.length - 1 = j := by omega
        have hgl2 : l.getLastD 0 = l[j] := by
          rw [hgl]
          congr 1
        obtain ⟨r, hr, hrid, hrp⟩ := chainAux_last_root hl
        have hrn : r = n := by
          refine nodes_id_inj hnd hr hn ?_
          rw [hrid, hgl2, hxj]
        subst hrn
        exact hp hrp
    · have hfix : rerootFn nr l n = n := rerootFn_not_mem hnrl hmem
      refine ⟨rerootFn nr l n, List.mem_map.mpr ⟨n, hn, rfl⟩, ?_, ?_⟩
      · rw [hfix]
        exact hp
      · rw [hfix]
        exact hor

/-- C2: rerooting a healed (single-rooted, well-formed) skeleton at a node
`nr` present in it, with reroot path `l` (from `nr` to the old root), gives:
the node with id `nr` has `parent_id = -1`; node count and the id multiset
are unchanged; the undirected edge set is identical; every node off the
path is byte-for-byte unchanged; parent edges are flipped exactly along the
path (each path node's new parent is its path predecessor); and the result
is cycle-free — every node's parent chain is well defined and ends at
`nr`. -/
theorem reroot_correct (g : Skeleton) (nr : Int) (l : List Int)
    (hwf : WellFormed g) (hone : (roots g).length = 1)
    (hl : chain g nr = some l) :
    (∀ n ∈ reroot_skeleton g nr, n.node_id = nr → n.parent_id = -1) ∧
      (reroot_skeleton g nr).length = g.length ∧
      (reroot_skeleton g nr).map (·.node_id) = g.map (·.node_id) ∧
      (∀ a b, adjacent (reroot_skeleton g nr) a b ↔ adjacent g a b) ∧
      (∀ n ∈ g, n.node_id ∉ l → n ∈ reroot_skeleton g nr) ∧
      (∀ p v, (p, v) ∈ l.zip l.tail →
        ∃ n ∈ reroot_skeleton g nr, n.node_id = v ∧ n.parent_id = p) ∧
      (∀ n ∈ reroot_skeleton g nr,
        ∃ c, chain (reroot_skeleton g nr) n.node_id = some c ∧
          c.getLastD 0 = nr) := by
  have hl' : chainAux g g.length nr = some l := hl
  have hreq : reroot_skeleton g nr = g.map (rerootFn nr l) := by
    unfold reroot_skeleton
    rw [hl]
  obtain ⟨hnd, hnonneg, hch⟩ := hwf
  have hnodup := chainAux_nodup hl'
  obtain ⟨t0, hl0⟩ := chainAux_head hl'
  have hnrl : nr ∈ l := by rw [hl0]; exact List.mem_cons_self _ _
  refine ⟨?_, ?_, ?_, ?_, ?_, ?_, ?_⟩
  · intro n' hmem hid
    rw [hreq] at hmem
    obtain ⟨n, hn, rfl⟩ := List.mem_map.mp hmem
    have hid' : n.node_id = nr := by rw [← rerootFn_id nr l n]; exact hid
    show (rerootFn nr l n).parent_id = -1
    unfold rerootFn
    rw [if_pos hid']
  · rw [hreq]
    simp
  · rw [hreq, List.map_map]
    exact List.map_congr_left (fun n _ => rerootFn_id nr l n)
  · rw [hreq]
    exact reroot_edges ⟨hnd, hnonneg, hch⟩ hl'
  · intro n hn hnl
    rw [hreq]
    exact List.mem_map.mpr ⟨n, hn, rerootFn_not_mem hnrl hnl⟩
  · intro p v hpv
    have hvl : v ∈ l := List.mem_of_mem_tail (List.of_mem_zip hpv).2
    have hvtail : v ∈ l.tail := (List.of_mem_zip hpv).2
    have hvne : v ≠ nr := by
      intro he
      subst he
      rw [hl0] at hvtail
      rw [hl0] at hnodup
      rw [List.nodup_cons] at hnodup
      exact hnodup.1 hvtail
    obtain ⟨w, hw, hwid⟩ := chainAux_mem_ids hl' v hvl
    have hprev : prevInChain l w.node_id = some p := by
      rw [hwid]
      exact (prevInChain_iff hnodup).mpr hpv
    have hfn : rerootFn nr l w = { w with parent_id := p } := by
      unfold rerootFn
      rw [if_neg (by rw [hwid]; exact hvne), hprev]
    rw [hreq]
    refine ⟨rerootFn nr l w, List.mem_map.mpr ⟨w, hw, rfl⟩, ?_, ?_⟩
    · rw [hfn]
      show w.node_id = v
      exact hwid
    · rw [hfn]
  · have hlastR : ∀ {f2 : Nat} {x : Int} {c : List Int},
        chainAux g f2 x = some c → c.getLastD 0 = l.getLastD 0 := by
      intro f2 x c hc
      obtain ⟨r1, hr1, hr1id, hr1p⟩ := chainAux_last_root hc
      obtain ⟨r2, hr2, hr2id, hr2p⟩ := chainAux_last_root hl'
      have h1 : r1 ∈ roots g := roots_mem.mpr ⟨hr1, hr1p⟩
      have h2 : r2 ∈ roots g := roots_mem.mpr ⟨hr2, hr2p⟩
      obtain ⟨R, hR⟩ : ∃ R, roots g = [R] := by
        cases hroots : roots g with
        | nil => rw [hroots] at hone; simp at hone
        | cons R rest =>
          cases rest with
          | nil => exact ⟨R, rfl⟩
          | cons R2 rest2 => rw [hroots] at hone; simp at hone
      rw [hR, List.mem_singleton] at h1 h2
      subst h1
      subst h2
      rw [← hr1id, ← hr2id]
    intro n' hmem
    rw [hreq] at hmem
    obtain ⟨n, hn, rfl⟩ := List.mem_map.mp hmem
    have hnch := hch n hn
    rw [Option.isSome_iff_exists] at hnch
    obtain ⟨c0, hc0⟩ := hnch
    obtain ⟨f', c', hc', hlast'⟩ :=
      reroot_climb hnd hnonneg hl' hlastR hc0
    refine ⟨c', ?_, hlast'⟩
    rw [rerootFn_id nr l n, hreq]
    exact chain_of_chainAux hc'

/-- Witness for C2: rerooting the 5-node chain of the specification
scenario at node 3 (path `[3, 4, 5]`). -/
theorem reroot_correct_witness :
    (∀ n ∈ reroot_skeleton exChain5 3, n.node_id = 3 → n.parent_id = -1) ∧
      (reroot_skeleton exChain5 3).length = exChain5.length ∧
      (reroot_skeleton exChain5 3).map (·.node_id) = exChain5.map (·.node_id) ∧
      (∀ a b, adjacent (reroot_skeleton exChain5 3) a b ↔ adjacent exChain5 a b) ∧
      (∀ n ∈ exChain5, n.node_id ∉ [(3 : Int), 4, 5] → n ∈ reroot_skeleton exChain5 3) ∧
      (∀ p v, (p, v) ∈ ([(3 : Int), 4, 5]).zip ([(3 : Int), 4, 5]).tail →
        ∃ n ∈ reroot_skeleton exChain5 3, n.node_id = v ∧ n.parent_id = p) ∧
      (∀ n ∈ reroot_skeleton exChain5 3,
        ∃ c, chain (reroot_skeleton exChain5 3) n.node_id = some c ∧
          c.getLastD 0 = 3) :=
  reroot_correct exChain5 3 [3, 4, 5] (by decide) (by decide) (by decide)

/-- C5: the leaf set computed for tip detection is exactly the set of nodes
whose `node_id` never occurs as any node's `parent_id` in the table. -/
theorem find_leafs_correct (g : Skeleton) (n : SkelNode) :
    n ∈ find_leafs g ↔ n ∈ g ∧ ∀ m ∈ g, m.parent_id ≠ n.node_id := by
  simp only [find_leafs, List.mem_filter, Bool.not_eq_true', decide_eq_false_iff_not,
    List.mem_map, not_exists, not_and]

/-- Erosion only keeps voxels of the input set. -/
theorem remove_surface_subset {l : List Voxel} {v : Voxel}
    (h : v ∈ remove_surface_voxels l) : v ∈ l :=
  (List.mem_filter.mp h).1

/-- Erosion of a non-empty voxel set is strictly smaller: a voxel with
maximal x-coordinate has its `x+1` neighbor absent, so it is removed. -/
theorem remove_surface_length_lt {l : List Voxel} (h : l ≠ []) :
    (remove_surface_voxels l).length < l.length := by
  obtain ⟨m, hm⟩ : ∃ m, l.argmax (fun v => v.1) = some m := by
    cases hm : l.argmax (fun v => v.1) with
    | none => exact absurd (List.argmax_eq_none.mp hm) h
    | some m => exact ⟨m, rfl⟩
  have hmem : m ∈ l := List.argmax_mem hm
  have hnb : (m.1 + 1, m.2.1, m.2.2) ∉ l := by
    intro hin
    have h2 : m.1 + 1 ≤ m.1 := by simpa using List.le_of_mem_argmax hin hm
    omega
  unfold remove_surface_voxels
  rw [List.length_filter_lt_length_iff_exists]
  refine ⟨m, hmem, ?_⟩
  simp only [vneighbors, List.all_cons, Bool.and_eq_true, decide_eq_true_eq]
  intro hall
  exact hnb hall.1

/-- Eroding the empty set yields the empty set. -/
theorem remove_surface_nil : remove_surface_voxels [] = [] := rfl

/-- Iterated erosion empties any voxel set within `length` steps. -/
theorem iterate_erode_empty : ∀ (n : Nat) (l : List Voxel), l.length ≤ n →
    remove_surface_voxels^[n] l = [] := by
  intro n
  induction n with
  | zero =>
    intro l hl
    simpa using List.eq_nil_of_length_eq_zero (Nat.le_zero.mp hl)
  | succ n ih =>
    intro l hl
    rw [Function.iterate_succ_apply]
    rcases eq_or_ne l [] with rfl | hne
    · exact ih _ (by rw [remove_surface_nil]; exact Nat.zero_le n)
    · exact ih _ (Nat.le_of_lt_succ (lt_of_lt_of_le (remove_surface_length_lt hne) hl))

/-- One unfolding step of the erosion loop. -/
theorem erode_loop_succ (fuel : Nat) (l : List Voxel) :
    erode_loop (fuel + 1) l =
      if (remove_surface_voxels l).length = 0 then l
      else erode_loop fuel (remove_surface_voxels l) := rfl

/-- The erosion loop preserves non-emptiness and only shrinks the set. -/
theorem erode_loop_invariant : ∀ (fuel : Nat) (l : List Voxel), l ≠ [] →
    erode_loop fuel l ≠ [] ∧ ∀ v ∈ erode_loop fuel l, v ∈ l := by
  intro fuel
  induction fuel with
  | zero => exact fun l hl => ⟨hl, fun v hv => hv⟩
  | succ fuel ih =>
    intro l hl
    rw [erode_loop_succ]
    by_cases he : (remove_surface_voxels l).length = 0
    · rw [if_pos he]
      exact ⟨hl, fun v hv => hv⟩
    · rw [if_neg he]
      have hne : remove_surface_voxels l ≠ [] := by
        intro h0; exact he (by simp [h0])
      obtain ⟨h1, h2⟩ := ih (remove_surface_voxels l) hne
      exact ⟨h1, fun v hv => remove_surface_subset (h2 v hv)⟩

/-- With fuel at least `l.length` the erosion loop has stabilized. -/
theorem erode_loop_stable : ∀ (f₁ : Nat) (l : List Voxel) (f₂ : Nat),
    l.length ≤ f₁ → l.length ≤ f₂ → erode_loop f₁ l = erode_loop f₂ l := by
  intro f₁
  induction f₁ with
  | zero =>
    intro l f₂ h1 _
    have : l = [] := List.eq_nil_of_length_eq_zero (Nat.le_zero.mp h1)
    subst this
    cases f₂ with
    | zero => rfl
    | succ f₂ => simp [erode_loop, remove_surface_nil]
  | succ f₁ ih =>
    intro l f₂ h1 h2
    rcases eq_or_ne l [] with rfl | hne
    · cases f₂ with
      | zero => rfl
      | succ f₂ => simp [erode_loop, remove_surface_nil]
    · have hlen : 1 ≤ l.length := List.length_pos.mpr hne
      cases f₂ with
      | zero => omega
      | succ f₂ =>
        rw [erode_loop_succ, erode_loop_succ]
        by_cases he : (remove_surface_voxels l).length = 0
        · rw [if_pos he, if_pos he]
        · rw [if_neg he, if_neg he]
          have hlt := remove_surface_length_lt hne
          exact ih (remove_surface_voxels l) f₂ (by omega) (by omega)

/-- C6: repeated erosion of a finite non-empty voxel set reaches the empty
set within finitely many steps (at most `l.length`), and an empty erosion
result is a normal stop condition for the caller's loop in
`get_body_position`: the loop terminates (the result is stable once the fuel
reaches `l.length`) with the last non-empty set, raising nothing. -/
theorem erode_termination (l : List Voxel) (h : l ≠ []) :
    remove_surface_voxels^[l.length] l = [] ∧
      erode_loop l.length l ≠ [] ∧
      ∀ f, l.length ≤ f → erode_loop f l = erode_loop l.length l := by
  refine ⟨iterate_erode_empty l.length l le_rfl, (erode_loop_invariant l.length l h).1, ?_⟩
  intro f hf
  exact erode_loop_stable f l l.length hf le_rfl

/-- Witness for C6 on a concrete 2x1x1 voxel pair. -/
theorem erode_termination_witness :
    remove_surface_voxels^[2] [((0 : Int), (0 : Int), (0 : Int)), (1, 0, 0)] = [] ∧
      erode_loop 2 [((0 : Int), (0 : Int), (0 : Int)), (1, 0, 0)] ≠ [] ∧
      ∀ f, 2 ≤ f → erode_loop f [((0 : Int), (0 : Int), (0 : Int)), (1, 0, 0)] =
        erode_loop 2 [((0 : Int), (0 : Int), (0 : Int)), (1, 0, 0)] :=
  erode_termination [((0 : Int), (0 : Int), (0 : Int)), (1, 0, 0)] (by decide)

/-- C9: each erosion loop in `get_body_position` keeps the working voxel set
non-empty (a step that would empty it is discarded and the loop exits with
the previous set), so every voxel of the result — in particular the returned
`voxels[0]` — is one of the body's own voxels. -/
theorem get_body_position_erosion_invariant (fuel : Nat) (l : List Voxel)
    (h : l ≠ []) :
    erode_loop fuel l ≠ [] ∧ ∀ v ∈ erode_loop fuel l, v ∈ l :=
  erode_loop_invariant fuel l h

/-- Witness for C9 on a concrete voxel set. -/
theorem get_body_position_erosion_invariant_witness :
    erode_loop 3 [((2 : Int), (5 : Int), (7 : Int))] ≠ [] ∧
      ∀ v ∈ erode_loop 3 [((2 : Int), (5 : Int), (7 : Int))],
        v ∈ [((2 : Int), (5 : Int), (7 : Int))] :=
  get_body_position_erosion_invariant 3 [((2 : Int), (5 : Int), (7 : Int))] (by decide)

/-- C8: `eval_param` uses an explicitly passed (non-None) value as given,
consults the module-level global default exactly for the parameters passed
as None, and never mutates the globals. -/
theorem eval_param_correct (g : DvidGlobals) (server node user : Option String) :
    (eval_param g server node user).2 = g ∧
      (∀ v, server = some v → (eval_param g server node user).1.1 = some v) ∧
      (server = none → (eval_param g server node user).1.1 = g.server) ∧
      (∀ v, node = some v → (eval_param g server node user).1.2.1 = some v) ∧
      (node = none → (eval_param g server node user).1.2.1 = g.node) ∧
      (∀ v, user = some v → (eval_param g server node user).1.2.2 = some v) ∧
      (user = none → (eval_param g server node user).1.2.2 = g.user) := by
  refine ⟨rfl, ?_, ?_, ?_, ?_, ?_, ?_⟩ <;>
    first
      | (intro v hv; subst hv; rfl)
      | (intro hv; subst hv; rfl)

/-- Witness for C8 at concrete values. -/
theorem eval_param_correct_witness :
    (eval_param ⟨some ("s0"), some ("n0"), none⟩ (some ("s1")) none none).2 =
        ⟨some ("s0"), some ("n0"), none⟩ ∧
      (∀ v, (some ("s1") : Option String) = some v →
        (eval_param ⟨some ("s0"), some ("n0"), none⟩ (some ("s1")) none none).1.1 = some v) ∧
      ((some ("s1") : Option String) = none →
        (eval_param ⟨some ("s0"), some ("n0"), none⟩ (some ("s1")) none none).1.1 = some ("s0")) ∧
      (∀ v, (none : Option String) = some v →
        (eval_param ⟨some ("s0"), some ("n0"), none⟩ (some ("s1")) none none).1.2.1 = some v) ∧
      ((none : Option String) = none →
        (eval_param ⟨some ("s0"), some ("n0"), none⟩ (some ("s1")) none none).1.2.1 = some ("n0")) ∧
      (∀ v, (none : Option String) = some v →
        (eval_param ⟨some ("s0"), some ("n0"), none⟩ (some ("s1")) none none).1.2.2 = some v) ∧
      ((none : Option String) = none →
        (eval_param ⟨some ("s0"), some ("n0"), none⟩ (some ("s1")) none none).1.2.2 = none) :=
  eval_param_correct ⟨some ("s0"), some ("n0"), none⟩ (some ("s1")) none none

/-- One run expands to exactly `length` voxels. -/
theorem expandRun_length (r : VoxelRun) : (expandRun r).length = r.length := by
  simp [expandRun]

/-- Membership in the expansion of one run. -/
theorem mem_expandRun {r : VoxelRun} {v : Voxel} :
    v ∈ expandRun r ↔ ∃ i, i < r.length ∧ v = (r.x + (i : Int), r.y, r.z) := by
  simp only [expandRun, List.mem_map, List.mem_range]
  constructor
  · rintro ⟨i, hi, rfl⟩; exact ⟨i, hi, rfl⟩
  · rintro ⟨i, hi, rfl⟩; exact ⟨i, hi, rfl⟩

/-- The voxels of one run are pairwise distinct. -/
theorem expandRun_nodup (r : VoxelRun) : (expandRun r).Nodup := by
  refine List.Nodup.map ?_ (List.nodup_range _)
  intro a b hab
  have h1 : r.x + (a : Int) = r.x + (b : Int) := congrArg Prod.fst hab
  omega

/-- Disjoint runs expand to disjoint voxel lists. -/
theorem expandRun_disjoint {r s : VoxelRun} (h : RunsDisjoint r s) :
    List.Disjoint (expandRun r) (expandRun s) := by
  intro v hv hw
  obtain ⟨i, hi, rfl⟩ := mem_expandRun.mp hv
  obtain ⟨j, hj, hvw⟩ := mem_expandRun.mp hw
  obtain ⟨hx, hy, hz⟩ : r.x + (i : Int) = s.x + (j : Int) ∧ r.y = s.y ∧ r.z = s.z := by
    refine ⟨congrArg Prod.fst hvw, ?_, ?_⟩
    · exact congrArg (fun p => p.2.1) hvw
    · exact congrArg (fun p => p.2.2) hvw
  rcases h with h | h | h | h
  · exact h hy
  · exact h hz
  · omega
  · omega

/-- Expansion produces one voxel per unit of run length. -/
theorem expand_length (runs : List VoxelRun) :
    (expand runs).length = (runs.map (·.length)).sum := by
  induction runs with
  | nil => rfl
  | cons r rs ih =>
    simp only [expand, List.flatMap_cons, List.length_append, List.map_cons, List.sum_cons]
    rw [expandRun_length]
    exact congrArg (r.length + ·) ih

/-- C4: for a well-formed buffer (decoding succeeds and the declared runs
are pairwise disjoint), expanding the decoded runs yields exactly
sum-of-run-lengths voxels with no duplicates, each run contributing
`x+0 … x+length-1` at fixed `y, z`; and the concrete buffer with header
`(0, 3, 0, 0, count=2)` and runs `(0,0,0,3)`, `(5,0,0,2)` decodes to the five
voxels `(0,0,0), (1,0,0), (2,0,0), (5,0,0), (6,0,0)`. -/
theorem decode_expand_correct :
    (∀ b hdr runs, decode_sparsevol b = some (hdr, runs) →
        runs.Pairwise RunsDisjoint →
        (expand runs).length = (runs.map (·.length)).sum ∧ (expand runs).Nodup) ∧
      decode_sparsevol exampleBuffer =
        some (⟨0, 3, 0, 0, 2⟩, [⟨0, 0, 0, 3⟩, ⟨5, 0, 0, 2⟩]) ∧
      expand [⟨0, 0, 0, 3⟩, ⟨5, 0, 0, 2⟩] =
        [((0 : Int), (0 : Int), (0 : Int)), (1, 0, 0), (2, 0, 0), (5, 0, 0), (6, 0, 0)] := by
  refine ⟨?_, by decide, by decide⟩
  intro b hdr runs _ hdisj
  refine ⟨expand_length runs, ?_⟩
  rw [expand, List.nodup_flatMap]
  exact ⟨fun r _ => expandRun_nodup r, hdisj.imp (fun h => expandRun_disjoint h)⟩

/-- Witness for C4: the general statement applied to the scenario buffer. -/
theorem decode_expand_correct_witness :
    (expand [⟨0, 0, 0, 3⟩, ⟨5, 0, 0, 2⟩]).length =
        (([⟨0, 0, 0, 3⟩, ⟨5, 0, 0, 2⟩] : List VoxelRun).map (·.length)).sum ∧
      (expand [⟨0, 0, 0, 3⟩, ⟨5, 0, 0, 2⟩]).Nodup :=
  decode_expand_correct.1 exampleBuffer ⟨0, 3, 0, 0, 2⟩ [⟨0, 0, 0, 3⟩, ⟨5, 0, 0, 2⟩]
    (by decide) (by decide)

/-- C7: for scales with a `vsize` entry — `"COARSE"` and every integer scale
below `MaxDownresLevel` — the `COORDS` result of `get_neuron` is exactly the
`INDEX` result multiplied elementwise by the per-axis voxel-size vector.  But
the claim fails at `scale = MaxDownresLevel`: that scale passes the
validation (`scale > MaxDownresLevel` raises), yet the `vsize` dict built
over `range(MaxDownresLevel)` has no such key, so the `COORDS` branch raises
`KeyError` (modelled as `none`) while `INDEX` still returns the voxels. -/
theorem get_neuron_coords_scaling (info : SegInfo) (voxels : List Voxel) :
    (∀ i, i < info.maxDownresLevel →
        get_neuron_ret info (NeuronScale.level i) voxels RetType.coords =
          some (voxels.map (elemMul (vsize_at info i)))) ∧
      get_neuron_ret info NeuronScale.coarse voxels RetType.coords =
        some (voxels.map (elemMul info.blockSize)) ∧
      scale_accepted info (NeuronScale.level info.maxDownresLevel) = true ∧
      get_neuron_ret info (NeuronScale.level info.maxDownresLevel) voxels
          RetType.coords = none ∧
      get_neuron_ret info (NeuronScale.level info.maxDownresLevel) voxels
          RetType.index = some voxels := by
  refine ⟨?_, rfl, by simp [scale_accepted], ?_, rfl⟩
  · intro i hi
    simp [get_neuron_ret, vsize_lookup, hi]
  · simp [get_neuron_ret, vsize_lookup]

/-- Witness for C7: a concrete `SegInfo` with `MaxDownresLevel = 2` and one
voxel; scale 1 converts elementwise, scale 2 is accepted yet has no voxel
size. -/
theorem get_neuron_coords_scaling_witness :
    get_neuron_ret ⟨(64, 64, 64), (8, 8, 8), 2⟩ (NeuronScale.level 1)
        [((3 : Int), (4 : Int), (5 : Int))] RetType.coords =
      some [((3 : Int) * 16, (4 : Int) * 16, (5 : Int) * 16)] ∧
      scale_accepted ⟨(64, 64, 64), (8, 8, 8), 2⟩ (NeuronScale.level 2) = true ∧
      get_neuron_ret ⟨(64, 64, 64), (8, 8, 8), 2⟩ (NeuronScale.level 2)
          [((3 : Int), (4 : Int), (5 : Int))] RetType.coords = none := by
  have h := get_neuron_coords_scaling ⟨(64, 64, 64), (8, 8, 8), 2⟩
    [((3 : Int), (4 : Int), (5 : Int))]
  refine ⟨?_, h.2.2.1, h.2.2.2.1⟩
  have h1 := h.1 1 (by decide)
  rw [h1]
  decide

/-- C10: with `save_to=None`, `detect_tips` returns the surviving leaf nodes
ordered by radius in non-increasing order; the output is a permutation of the
surviving leaves. -/
theorem detect_tips_sorted (g : Skeleton) (keep : SkelNode → Bool) :
    (detect_tips_core g keep).Pairwise radGE ∧
      (detect_tips_core g keep).Perm ((find_leafs g).filter keep) := by
  refine ⟨?_, List.perm_insertionSort radGE _⟩
  exact List.sorted_insertionSort radGE _

end DvidTools
